import Mathlib

/-!
Verification of the document-structure and comparison engine of the
arxiv-source-browser repository.  Text is modelled as `List Char` (JS strings),
bytes as `List Nat`.  Each definition is a shallow embedding of the function of
the same name in the TypeScript source.
-/

set_option maxHeartbeats 1000000

/-- JS `\s` whitespace class (ASCII part), used by `trim`, `\s*` and `/\s/`. -/
def jsSpace (c : Char) : Bool :=
  c = ' ' || c = '\t' || c = '\n' || c = '\r' || c = '\x0b' || c = '\x0c'

/-- JS `String.prototype.split('\n')`: splitting an empty string yields `[[]]`,
and every `'\n'` starts a fresh piece. -/
def splitOnNl : List Char → List (List Char)
  | [] => [[]]
  | c :: rest =>
    let r := splitOnNl rest
    if c = '\n' then [] :: r
    else (c :: r.headI) :: r.tail

/-- JS `Array.prototype.join('\n')`. -/
def joinNl : List (List Char) → List Char
  | [] => []
  | [l] => l
  | l :: ls => l ++ '\n' :: joinNl ls

/-! ## latexComments.ts -/

/-- The backward backslash count of `transformLine` / `stripCommentsPreservingLength`:
`prevRev` is the reversed already-scanned prefix, and the count is the number of
consecutive backslashes immediately before the current position. -/
def countPrecedingBackslashes (prevRev : List Char) : Nat :=
  (prevRev.takeWhile (fun c => c = '\\')).length

/-- Scanning loop of `transformLine`: the relative index of the first `%` in the
line that is preceded by an even number of backslashes, if any. -/
def firstUnescapedPercentGo (prevRev : List Char) : List Char → Option Nat
  | [] => none
  | c :: rest =>
    if c = '%' && countPrecedingBackslashes prevRev % 2 == 0 then some 0
    else (firstUnescapedPercentGo (c :: prevRev) rest).map (· + 1)

def firstUnescapedPercent (line : List Char) : Option Nat :=
  firstUnescapedPercentGo [] line

/-- JS `line.replace(/[ \t]+$/, '')`. -/
def rstripHorizontal (l : List Char) : List Char :=
  (l.reverse.dropWhile (fun c => c = ' ' || c = '\t')).reverse

structure LatexCommentTransform where
  removeLine : Bool
  transformedLine : List Char
deriving DecidableEq, Repr

/-- `transformLine` from latexComments.ts: scan for the first unescaped `%`;
a `%` at column 0 drops the whole line, otherwise the line is cut before the
`%` and trailing horizontal whitespace is removed. -/
def transformLine (line : List Char) : LatexCommentTransform :=
  match firstUnescapedPercent line with
  | none => ⟨false, line⟩
  | some 0 => ⟨true, []⟩
  | some i => ⟨false, rstripHorizontal (line.take i)⟩

/-- Body of the per-line loop of `stripLatexComments`: the transformed line of
a surviving line, `none` for a dropped one. -/
def keepTransformedLine (line : List Char) : Option (List Char) :=
  let t := transformLine line
  if t.removeLine then none else some t.transformedLine

/-- `stripLatexComments` from latexComments.ts. -/
def stripLatexComments (text : List Char) : List Char :=
  joinNl ((splitOnNl text).filterMap keepTransformedLine)

/-- Per-line loop of `buildVisibleLineMapAfterCommentStrip`, carrying the count
of lines kept so far. -/
def visibleLineMapGo (visibleLine : Nat) : List (List Char) → List Nat
  | [] => []
  | line :: rest =>
    if (transformLine line).removeLine then 0 :: visibleLineMapGo visibleLine rest
    else (visibleLine + 1) :: visibleLineMapGo (visibleLine + 1) rest

/-- `buildVisibleLineMapAfterCommentStrip` from latexComments.ts. -/
def buildVisibleLineMapAfterCommentStrip (text : List Char) : List Nat :=
  visibleLineMapGo 0 (splitOnNl text)

/-! ## TeX outline extraction (texOutline module) -/

/-- `stripCommentsPreservingLength`, main loop.  `prevRev` is the reversed
original prefix already scanned (the source counts backslashes backwards in the
original text).  An unescaped `%` and everything after it up to the next
newline are replaced by spaces; the newline itself is kept. -/
def stripCommentsGo (prevRev : List Char) : List Char → List Char
  | [] => []
  | c :: rest =>
    if c = '%' then
      if countPrecedingBackslashes prevRev % 2 = 1 then
        c :: stripCommentsGo (c :: prevRev) rest
      else
        let comment := rest.takeWhile (fun x => !(x = '\n'))
        ' ' :: (comment.map fun _ => ' ') ++
          (if comment.length < rest.length then
            '\n' :: stripCommentsGo ('\n' :: (comment.reverse ++ c :: prevRev))
              (rest.drop (comment.length + 1))
          else [])
    else c :: stripCommentsGo (c :: prevRev) rest
termination_by l => l.length
decreasing_by
  · simp
  · simp [List.length_drop]; omega
  · simp

/-- `stripCommentsPreservingLength` from the texOutline module. -/
def stripCommentsPreservingLength (content : List Char) : List Char :=
  stripCommentsGo [] content

/-- One-character-per-step state machine equivalent to `stripCommentsGo`
(the state is "inside a comment" plus the current run of preceding
backslashes); used only for proofs. -/
def maskStep : Bool → Nat → List Char → List Char
  | _, _, [] => []
  | true, _, c :: cs =>
    if c = '\n' then '\n' :: maskStep false 0 cs else ' ' :: maskStep true 0 cs
  | false, run, c :: cs =>
    if c = '%' then
      if run % 2 = 1 then c :: maskStep false 0 cs else ' ' :: maskStep true 0 cs
    else c :: maskStep false (if c = '\\' then run + 1 else 0) cs

/-- Depth-aware delimited-argument scanner `parseDelimitedValue`, inner loop.
Starts at the opening delimiter with depth 0; returns the argument value and
the number of characters consumed (delimiters included), or `none` when the
argument is unterminated. -/
def parseDelimitedGo (openChar closeChar : Char) (depth : Int) : List Char → Option (List Char × Nat)
  | [] => none
  | c :: rest =>
    if c = openChar then
      (parseDelimitedGo openChar closeChar (depth + 1) rest).map
        (fun vn => (if depth + 1 > 1 then c :: vn.1 else vn.1, vn.2 + 1))
    else if c = closeChar then
      if depth - 1 = 0 then some ([], 1)
      else (parseDelimitedGo openChar closeChar (depth - 1) rest).map
        (fun vn => (c :: vn.1, vn.2 + 1))
    else (parseDelimitedGo openChar closeChar depth rest).map
      (fun vn => (c :: vn.1, vn.2 + 1))

/-- `parseDelimitedValue(text, startIndex, openChar, closeChar)`: `none` when
`startIndex` is out of range or does not hold the opening delimiter; otherwise
the value together with the end index (one past the closing delimiter). -/
def parseDelimitedValue (text : List Char) (startIndex : Nat) (openChar closeChar : Char) :
    Option (List Char × Nat) :=
  match text.drop startIndex with
  | [] => none
  | c :: _ =>
    if c = openChar then
      (parseDelimitedGo openChar closeChar 0 (text.drop startIndex)).map
        (fun vn => (vn.1, startIndex + vn.2))
    else none

/-- JS `title.replace(/\s+/g, ' ')`: each maximal whitespace run becomes one
space (`prevWasSpace` tracks whether the previous character was whitespace). -/
def collapseWhitespaceGo (prevWasSpace : Bool) : List Char → List Char
  | [] => []
  | c :: cs =>
    if jsSpace c then
      if prevWasSpace then collapseWhitespaceGo true cs
      else ' ' :: collapseWhitespaceGo true cs
    else c :: collapseWhitespaceGo false cs

/-- JS `String.prototype.trim()` (restricted to the ASCII `\s` class). -/
def trimWs (l : List Char) : List Char :=
  ((l.dropWhile jsSpace).reverse.dropWhile jsSpace).reverse

/-- `normalizeHeadingTitle`: collapse whitespace runs, then trim. -/
def normalizeHeadingTitle (title : List Char) : List Char :=
  trimWs (collapseWhitespaceGo false title)

/-- `buildLineStartIndices`, loop part: the positions just after each
newline. -/
def lineStartsGo (i : Nat) : List Char → List Nat
  | [] => []
  | c :: cs =>
    if c = '\n' then (i + 1) :: lineStartsGo (i + 1) cs else lineStartsGo (i + 1) cs

/-- `buildLineStartIndices` from the texOutline module. -/
def buildLineStartIndices (content : List Char) : List Nat :=
  0 :: lineStartsGo 0 content

/-- Binary search of `findLineNumber`: `low`/`high` as in the source, result is
`high + 1` on exit (the number of line starts at or before `index`). -/
def findLineNumberGo (index : Nat) (lineStarts : List Nat) (low high : Int) : Int :=
  if low > high then high + 1
  else if lineStarts.getD ((low + high) / 2).toNat 0 ≤ index then
    findLineNumberGo index lineStarts ((low + high) / 2 + 1) high
  else
    findLineNumberGo index lineStarts low ((low + high) / 2 - 1)
termination_by (high + 1 - low).toNat
decreasing_by
  · omega
  · omega

/-- `findLineNumber` from the texOutline module (1-based line of a byte
offset). -/
def findLineNumber (index : Nat) (lineStarts : List Nat) : Nat :=
  (findLineNumberGo index lineStarts 0 ((lineStarts.length : Int) - 1)).toNat

structure TexOutlineEntry where
  id : List Char
  title : List Char
  lineNumber : Nat
  command : List Char
  depth : Nat
deriving DecidableEq, Repr

structure RawTexOutlineEntry where
  id : List Char
  title : List Char
  lineNumber : Nat
  command : List Char
  level : Nat
deriving DecidableEq, Repr

/-- `SECTION_COMMANDS` in regex-alternation order. -/
def sectionCommands : List (List Char) :=
  [("part").data, ("chapter").data, ("section").data, ("subsection").data,
   ("subsubsection").data, ("paragraph").data, ("subparagraph").data]

/-- `SECTION_LEVEL_MAP.get`: the rank of a sectioning command name. -/
def sectionLevel (cmd : List Char) : Option Nat :=
  sectionCommands.findIdx? (fun c => c = cmd)

/-- Entry id `` `${lineNumber}-${rawEntries.length}` ``. -/
def mkEntryId (lineNumber count : Nat) : List Char :=
  (Nat.repr lineNumber).data ++ '-' :: (Nat.repr count).data

/-- Steps (a)-(d) of the heading scan, operating on the characters following
the matched command (and optional star): skip whitespace, optionally parse a
bracketed short title, then require and parse the mandatory braced title;
returns the normalized title or `none` when this heading is skipped. -/
def parseHeadingTitle (afterCmd : List Char) : Option (List Char) :=
  let s1 := afterCmd.dropWhile jsSpace
  let parseMandatory := fun (s : List Char) (shortTitle : Option (List Char)) =>
    if s.head? = some '{' then
      match parseDelimitedValue s 0 '{' '}' with
      | none => none
      | some vn =>
        let rawTitle :=
          if vn.1 ≠ [] then vn.1
          else match shortTitle with
               | some st => st
               | none => []
        let title := normalizeHeadingTitle rawTitle
        if title = [] then none else some title
    else none
  if s1.head? = some '[' then
    match parseDelimitedValue s1 0 '[' ']' with
    | none => none
    | some vn => parseMandatory ((s1.drop vn.2).dropWhile jsSpace) (some vn.1)
  else parseMandatory s1 none

/-- The optional `*` after a matched command name: one extra matched
character when present. -/
def starLength (afterName : List Char) : Nat :=
  if afterName.head? = some '*' then 1 else 0

/-- Body of one successful command match of the `SECTION_PATTERN.exec` loop:
look up the command rank, parse the heading arguments from the characters
after the command (and star), and append the raw entry; any failure leaves
`acc` unchanged (the loop's `continue`). -/
def scanAppendHeading (lineStarts : List Nat) (pos : Nat) (cmd afterCmd : List Char)
    (acc : List RawTexOutlineEntry) : List RawTexOutlineEntry :=
  match sectionLevel cmd with
  | none => acc
  | some level =>
    match parseHeadingTitle afterCmd with
    | none => acc
    | some title =>
      let ln := findLineNumber pos lineStarts
      acc ++ [⟨mkEntryId ln acc.length, title, ln, cmd, level⟩]

/-- The `SECTION_PATTERN.exec` loop of `parseTexOutline`: scan the sanitized
text for `\` followed by a sectioning command name (regex alternation picks the
unique matching name) and an optional `*`; a successfully parsed heading is
appended to `acc`, and in every case scanning resumes right after the command
name (and star), exactly as the regex `lastIndex` does. -/
def scanSections (lineStarts : List Nat) : Nat → List Char → List RawTexOutlineEntry → List RawTexOutlineEntry
  | _, [], acc => acc
  | pos, c :: rest, acc =>
    if c = '\\' then
      match sectionCommands.find? (fun cmd => cmd.isPrefixOf rest) with
      | none => scanSections lineStarts (pos + 1) rest acc
      | some cmd =>
        scanSections lineStarts (pos + (1 + cmd.length + starLength (rest.drop cmd.length)))
          (rest.drop (cmd.length + starLength (rest.drop cmd.length)))
          (scanAppendHeading lineStarts pos cmd
            (rest.drop (cmd.length + starLength (rest.drop cmd.length))) acc)
    else scanSections lineStarts (pos + 1) rest acc
termination_by _ l _ => l.length
decreasing_by
  · simp
  · simp [List.length_drop]; omega
  · simp

structure TexOutlineResult where
  lineCount : Nat
  entries : List TexOutlineEntry
deriving DecidableEq, Repr

/-- `parseTexOutline` from the texOutline module. -/
def parseTexOutline (content : List Char) : TexOutlineResult :=
  let lineCount := (splitOnNl content).length
  let sanitized := stripCommentsPreservingLength content
  let lineStarts := buildLineStartIndices content
  let rawEntries := scanSections lineStarts 0 sanitized []
  match rawEntries with
  | [] => ⟨lineCount, []⟩
  | _ =>
    let minimumLevel := ((rawEntries.map (fun e => e.level)).min?).getD 0
    ⟨lineCount, rawEntries.map fun e =>
      ⟨e.id, e.title, e.lineNumber, e.command, e.level - minimumLevel⟩⟩

/-! ## App.tsx: archive differ, default file selection, version pair selection -/

/-- A `FileEntry` as used by diff mode: canonical path, the raw bytes of the
zip entry, and its text decoding (`zipFile.async('uint8array')` resp.
`async('text')`). -/
structure FileEntry where
  path : List Char
  bytes : List Nat
  text : List Char
deriving DecidableEq, Repr

inductive DiffFileStatus where
  | added
  | removed
  | modified
  | unchanged
deriving DecidableEq, Repr

structure DiffModeEntry where
  path : List Char
  status : DiffFileStatus
  oldFile : Option FileEntry
  newFile : Option FileEntry
deriving DecidableEq, Repr

/-- `fileContentsEqual`: length first, then byte by byte. -/
def fileContentsEqual (oldFile newFile : FileEntry) : Bool :=
  if oldFile.bytes.length ≠ newFile.bytes.length then false
  else (oldFile.bytes.zip newFile.bytes).all fun p => p.1 == p.2

/-- JS `Map` built from `files.map(f => [f.path, f])`: on duplicate paths the
last entry wins, so lookup searches the reversed list. -/
def mapGet (files : List FileEntry) (p : List Char) : Option FileEntry :=
  files.reverse.find? (fun f => f.path = p)

/-- JS `Map` key enumeration / `Set` construction: deduplicate keeping the
first occurrence, in insertion order (`seen` holds the keys already
emitted). -/
def dedupKeysGo (seen : List (List Char)) : List (List Char) → List (List Char)
  | [] => []
  | p :: rest =>
    if p ∈ seen then dedupKeysGo seen rest
    else p :: dedupKeysGo (p :: seen) rest

def dedupKeys (paths : List (List Char)) : List (List Char) :=
  dedupKeysGo [] paths

/-- Lexicographic code-unit comparison modelling `a.localeCompare(b) ≤ 0` as a
total order on paths. -/
def pathLe : List Char → List Char → Bool
  | [], _ => true
  | _ :: _, [] => false
  | a :: as_, b :: bs => if a = b then pathLe as_ bs else decide (a < b)

/-- Classification of one path of the union, as in the body of the
`for (const path of sortedPaths)` loop of `buildDiffEntries`. -/
def classifyPath (oldFiles newFiles : List FileEntry) (p : List Char) : Option DiffModeEntry :=
  match mapGet oldFiles p, mapGet newFiles p with
  | none, some newFile => some ⟨p, .added, none, some newFile⟩
  | some oldFile, none => some ⟨p, .removed, some oldFile, none⟩
  | none, none => none
  | some oldFile, some newFile =>
    some ⟨p, if fileContentsEqual oldFile newFile then .unchanged else .modified,
      some oldFile, some newFile⟩

/-- `buildDiffEntries`: union of the two path sets, sorted, one classified
entry per path. -/
def buildDiffEntries (oldFiles newFiles : List FileEntry) : List DiffModeEntry :=
  let oldKeys := dedupKeys (oldFiles.map (fun f => f.path))
  let newKeys := dedupKeys (newFiles.map (fun f => f.path))
  let paths := dedupKeys (oldKeys ++ newKeys)
  let sortedPaths := paths.mergeSort pathLe
  sortedPaths.filterMap (classifyPath oldFiles newFiles)

/-- `entry.path.toLowerCase().endsWith('.tex')`. -/
def isTexPath (p : List Char) : Bool :=
  (".tex").data.isSuffixOf (p.map Char.toLower)

/-- `content.includes(needle)`. -/
def containsSubstring (hay needle : List Char) : Bool :=
  match hay with
  | [] => needle.isPrefixOf ([] : List Char)
  | _ :: rest => needle.isPrefixOf hay || containsSubstring rest needle

/-- The `candidate.find(...)` predicate of `findMainTexDiffPath`: the
available file (`entry.newFile ?? entry.oldFile`) contains the literal
`\begin{document}`. -/
def hasBeginDocument (e : DiffModeEntry) : Bool :=
  match e.newFile.or e.oldFile with
  | none => false
  | some f => containsSubstring f.text (("\\begin\x7bdocument\x7d").data)

/-- `findMainTexDiffPath`: the `.tex` candidates of the entry list; a single
candidate is returned directly; with several, the first one whose available
file (`newFile ?? oldFile`) contains `\begin{document}` wins, and otherwise
the first candidate is returned. -/
def findMainTexDiffPath (entries : List DiffModeEntry) : Option (List Char) :=
  let texCandidates := entries.filter (fun e => isTexPath e.path)
  match texCandidates with
  | [] => none
  | [single] => some single.path
  | first :: _ :: _ =>
    match texCandidates.find? hasBeginDocument with
    | some e => some e.path
    | none => some first.path

/-- JS `a || b` on an optional string: the empty string is falsy. -/
def jsOrPath (a b : Option (List Char)) : Option (List Char) :=
  match a with
  | some s => if s = [] then b else some s
  | none => b

/-- Default selected path in `loadDiffPair` (no preferred path):
`mainTexPath || firstChanged?.path || entries[0]?.path || null`. -/
def defaultSelectedDiffPath (entries : List DiffModeEntry) : Option (List Char) :=
  jsOrPath (findMainTexDiffPath entries)
    (jsOrPath ((entries.find? (fun e => !(e.status = .unchanged))).map (fun e => e.path))
      ((entries.head?).map (fun e => e.path)))

/-- `DiffVersion` metadata (version number plus opaque labels). -/
structure DiffVersion where
  version : Int
  id : List Char
  submittedUtc : List Char
  sizeLabel : List Char
deriving DecidableEq, Repr

structure DiffPairSelection where
  fromVersion : Option Int
  toVersion : Option Int
deriving DecidableEq, Repr

/-- `selectPreferredDiffPair` from App.tsx.  `none` models both `null` and
`undefined` preferred versions. -/
def selectPreferredDiffPair (versions : List DiffVersion)
    (preferredFromVersion preferredToVersion : Option Int) : DiffPairSelection :=
  let availableVersions := (versions.map (fun v => v.version)).mergeSort (fun a b => decide (a ≤ b))
  if availableVersions.length = 0 then ⟨none, none⟩
  else
    let latestVersion := availableVersions.getD (availableVersions.length - 1) 0
    let previousVersion :=
      if availableVersions.length ≥ 2 then availableVersions.getD (availableVersions.length - 2) 0
      else latestVersion
    let fromIsValid :=
      match preferredFromVersion with
      | none => false
      | some v => availableVersions.contains v
    let toIsValid :=
      match preferredToVersion with
      | none => false
      | some v => availableVersions.contains v
    ⟨some (if fromIsValid then preferredFromVersion.getD 0 else previousVersion),
     some (if toIsValid then preferredToVersion.getD 0 else latestVersion)⟩

/-! ## codemirror/latexLinks.ts -/

inductive LatexLinkKind where
  | input
  | graphics
  | ref
deriving DecidableEq, Repr

/-- A located, classified link span: byte offsets `[fromOff, toOff)` (the
source fields `from`/`to`), kind and trimmed payload. -/
structure LatexLinkSpan where
  fromOff : Nat
  toOff : Nat
  kind : LatexLinkKind
  payload : List Char
deriving DecidableEq, Repr

/-- `maskLatexCommentsPreservingLength` in latexLinks.ts is character-for-
character the same code as `stripCommentsPreservingLength`. -/
def maskLatexCommentsPreservingLength : List Char → List Char :=
  stripCommentsPreservingLength

/-- JS `\w` word character (for `\b` boundaries). -/
def isWordChar (c : Char) : Bool :=
  ('a' ≤ c && c ≤ 'z') || ('A' ≤ c && c ≤ 'Z') || ('0' ≤ c && c ≤ '9') || c = '_'

/-- The regex tail `\s*\{([^{}\n]+)\}` applied at the head of `s`: skip
whitespace, require `{`, a nonempty run of characters other than braces and
newline, then `}`.  Returns the captured payload and the number of characters
consumed. -/
def matchWsBraceArg (s : List Char) : Option (List Char × Nat) :=
  let ws := s.takeWhile jsSpace
  let t := s.drop ws.length
  match t with
  | '{' :: u =>
    let payload := u.takeWhile (fun c => !(c = '{') && !(c = '}') && !(c = '\n'))
    if payload.length = 0 then none
    else if (u.drop payload.length).head? = some '}' then
      some (payload, ws.length + 1 + payload.length + 1)
    else none
  | _ => none

/-- `INPUT_PATTERN = /\input\b\s*\{([^{}\n]+)\}/` matched at the head of `s`:
payload and total match length, or `none`. -/
def tryMatchInput (s : List Char) : Option (List Char × Nat) :=
  if ("\\input").data.isPrefixOf s then
    let rest := s.drop 6
    if (match rest.head? with | none => true | some c => !(isWordChar c)) then
      (matchWsBraceArg rest).map (fun pn => (pn.1, 6 + pn.2))
    else none
  else none

/-- `GRAPHICS_PATTERN = /\includegraphics\b(?:\s*\[[^\]\n]*\])?\s*\{([^{}\n]+)\}/`
matched at the head of `s`.  When the bracket group is present but
unterminated, the whole match fails (the regex cannot backtrack into a `{` at
the `[`). -/
def tryMatchGraphics (s : List Char) : Option (List Char × Nat) :=
  if ("\\includegraphics").data.isPrefixOf s then
    let rest := s.drop 16
    if (match rest.head? with | none => true | some c => !(isWordChar c)) then
      let ws := rest.takeWhile jsSpace
      let t := rest.drop ws.length
      match t with
      | '[' :: u =>
        let opts := u.takeWhile (fun c => !(c = ']') && !(c = '\n'))
        if (u.drop opts.length).head? = some ']' then
          let consumed := ws.length + 1 + opts.length + 1
          (matchWsBraceArg (rest.drop consumed)).map
            (fun pn => (pn.1, 16 + consumed + pn.2))
        else none
      | _ => (matchWsBraceArg rest).map (fun pn => (pn.1, 16 + pn.2))
    else none
  else none

/-- `REF_PATTERN` command names in regex-alternation order. -/
def refCommandNames : List (List Char) :=
  [("Cref").data, ("cref").data, ("eqref").data, ("pageref").data,
   ("autoref").data, ("ref").data]

/-- `REF_PATTERN = /\(?:Cref|cref|eqref|pageref|autoref|ref)\b\s*\{([^{}\n]+)\}/`
matched at the head of `s` (at most one alternative can match at a
position). -/
def tryMatchRef (s : List Char) : Option (List Char × Nat) :=
  match s with
  | '\\' :: rest =>
    match refCommandNames.find? (fun name => name.isPrefixOf rest) with
    | none => none
    | some name =>
      let after := rest.drop name.length
      if (match after.head? with | none => true | some c => !(isWordChar c)) then
        (matchWsBraceArg after).map (fun pn => (pn.1, 1 + name.length + pn.2))
      else none
  | _ => none

/-- `collectRegexSpans`: the `pattern.exec` loop.  A match at `pos` with empty
trimmed payload is skipped but scanning still resumes after the match
(`lastIndex` advances either way); with no match the scan moves one character
forward. -/
def collectKindSpans (tryMatch : List Char → Option (List Char × Nat))
    (kind : LatexLinkKind) : Nat → List Char → List LatexLinkSpan
  | _, [] => []
  | pos, c :: rest =>
    match tryMatch (c :: rest) with
    | none => collectKindSpans tryMatch kind (pos + 1) rest
    | some pn =>
      let payload := trimWs pn.1
      let tailSpans := collectKindSpans tryMatch kind (pos + pn.2) (rest.drop (pn.2 - 1))
      if payload = [] then tailSpans
      else ⟨pos, pos + pn.2, kind, payload⟩ :: tailSpans
termination_by _ l => l.length
decreasing_by
  · simp
  · simp [List.length_drop]; omega

/-- Scan loop of `dedupeOverlappingSpans`: drop any span starting before the
end of the last accepted span (`lastEnd` starts at `-1`). -/
def dedupeScan : Int → List LatexLinkSpan → List LatexLinkSpan
  | _, [] => []
  | lastEnd, s :: rest =>
    if (s.fromOff : Int) < lastEnd then dedupeScan lastEnd rest
    else s :: dedupeScan (s.toOff : Int) rest

/-- Sort comparator `(a, b) => a.from - b.from || b.to - a.to` as a `≤`
relation: earlier start first, ties broken by longer span. -/
def spanSortLe (a b : LatexLinkSpan) : Bool :=
  decide (a.fromOff < b.fromOff) || (decide (a.fromOff = b.fromOff) && decide (b.toOff ≤ a.toOff))

/-- `dedupeOverlappingSpans` from latexLinks.ts. -/
def dedupeOverlappingSpans (spans : List LatexLinkSpan) : List LatexLinkSpan :=
  if spans.length ≤ 1 then spans
  else dedupeScan (-1) (spans.mergeSort spanSortLe)

inductive CodeViewerMode where
  | tex
  | bib
  | plain
deriving DecidableEq, Repr

/-- `collectLatexLinkSpans` from latexLinks.ts: empty unless the mode is TeX
and the text nonempty; three pattern passes over the comment-masked text, then
overlap resolution. -/
def collectLatexLinkSpans (text : List Char) (mode : CodeViewerMode) : List LatexLinkSpan :=
  if mode ≠ .tex || text = [] then []
  else
    let maskedText := maskLatexCommentsPreservingLength text
    dedupeOverlappingSpans
      (collectKindSpans tryMatchInput .input 0 maskedText ++
       collectKindSpans tryMatchGraphics .graphics 0 maskedText ++
       collectKindSpans tryMatchRef .ref 0 maskedText)

/-- Spec-side notion used to state C2: `x` is the maximum value of the list. -/
def IsMaxOf (l : List Int) (x : Int) : Prop :=
  x ∈ l ∧ ∀ y ∈ l, y ≤ x

/-! # Theorems -/

/-! ## Version pair selection (C2, C9) -/

theorem mergeSort_int_sorted (l : List Int) :
    (l.mergeSort (fun a b => decide (a ≤ b))).Pairwise (fun a b : Int => a ≤ b) := by
  have h := @List.sorted_mergeSort Int (fun a b : Int => decide (a ≤ b))
    (fun a b c hab hbc => by simp only [decide_eq_true_eq] at *; omega)
    (fun a b => by simp only [Bool.or_eq_true, decide_eq_true_eq]; omega) l
  exact h.imp (fun hab => by simpa using hab)

theorem pairwise_le_getElem (s : List Int) (hp : s.Pairwise (fun a b : Int => a ≤ b))
    (i j : Nat) (hi : i < s.length) (hj : j < s.length) (hij : i ≤ j) : s[i] ≤ s[j] := by
  rcases Nat.eq_or_lt_of_le hij with rfl | hlt
  · exact le_refl _
  · exact List.pairwise_iff_getElem.mp hp i j hi hj hlt

theorem isMaxOf_of_perm {a b : List Int} (h : a.Perm b) {x : Int} :
    IsMaxOf a x → IsMaxOf b x := by
  rintro ⟨hm, hub⟩
  exact ⟨h.mem_iff.mp hm, fun y hy => hub y (h.mem_iff.mpr hy)⟩

theorem erase_concat_perm (t : List Int) (a : Int) : ((t ++ [a]).erase a).Perm t := by
  by_cases hmem : a ∈ t
  · rw [List.erase_append_left _ hmem]
    exact (List.perm_append_singleton _ _).trans (List.perm_cons_erase hmem).symm
  · rw [List.erase_append_right _ hmem]
    simp

theorem erase_getLast_perm_dropLast (s : List Int) (h : s ≠ []) :
    (s.erase (s.getLast h)).Perm s.dropLast := by
  have h2 := erase_concat_perm s.dropLast (s.getLast h)
  rwa [List.dropLast_append_getLast h] at h2

theorem selectPreferredDiffPair_nil (pf pt : Option Int) :
    selectPreferredDiffPair [] pf pt = ⟨none, none⟩ := by
  simp [selectPreferredDiffPair]

/-- C9: with an empty version list `selectPreferredDiffPair` returns
`{fromVersion: null, toVersion: null}` whatever preferences are supplied, and
a non-null side is only ever produced for a non-empty list. -/
theorem claim_C9 (pf pt : Option Int) (versions : List DiffVersion) :
    selectPreferredDiffPair [] pf pt = ⟨none, none⟩ ∧
    ((selectPreferredDiffPair versions pf pt).fromVersion ≠ none ∨
      (selectPreferredDiffPair versions pf pt).toVersion ≠ none → versions ≠ []) := by
  refine ⟨selectPreferredDiffPair_nil pf pt, ?_⟩
  intro hne h0
  subst h0
  rw [selectPreferredDiffPair_nil pf pt] at hne
  rcases hne with hne | hne <;> exact hne rfl

theorem claim_C9_witness :
    selectPreferredDiffPair [] (some 5) (some 7) = ⟨none, none⟩ ∧
    ([⟨3, [], [], []⟩] : List DiffVersion) ≠ [] := by
  refine ⟨(claim_C9 (some 5) (some 7) []).1, ?_⟩
  refine (claim_C9 none none [⟨3, [], [], []⟩]).2 (Or.inl ?_)
  simp [selectPreferredDiffPair, List.mergeSort_singleton]

/-- C2: for a non-empty version list, the default "to" side is the maximum
available version and the default "from" side is the second-largest (the
maximum of the list with one occurrence of the maximum removed; the maximum
again when only one version exists); a supplied preferred version is used for
its side exactly when it occurs among the available versions, and the two
sides fall back independently. -/
theorem claim_C2 (versions : List DiffVersion) (pf pt : Option Int)
    (h : versions ≠ []) :
    ∃ T F, IsMaxOf (versions.map (fun v => v.version)) T ∧
      (if 2 ≤ versions.length then IsMaxOf ((versions.map (fun v => v.version)).erase T) F
       else F = T) ∧
      selectPreferredDiffPair versions pf pt =
        ⟨some (match pf with
               | some a => if a ∈ versions.map (fun v => v.version) then a else F
               | none => F),
         some (match pt with
               | some b => if b ∈ versions.map (fun v => v.version) then b else T
               | none => T)⟩ := by
  classical
  set vs := versions.map (fun v => v.version) with hvs
  set s := vs.mergeSort (fun a b => decide (a ≤ b)) with hs
  have hperm : s.Perm vs := List.mergeSort_perm vs _
  have hsorted : s.Pairwise (fun a b : Int => a ≤ b) := mergeSort_int_sorted vs
  have hvslen : vs.length = versions.length := by simp [hvs]
  have hslen : s.length = versions.length := by rw [hperm.length_eq, hvslen]
  have hvlen : 1 ≤ versions.length := by
    have : versions.length ≠ 0 := fun h0 => h (List.length_eq_zero.mp h0)
    omega
  have hsne : s ≠ [] := by
    intro h0
    rw [h0] at hslen
    simp at hslen
    omega
  have hlast : s.length - 1 < s.length := by omega
  set T := s[s.length - 1] with hT
  set F := (if 2 ≤ versions.length then s.getD (s.length - 2) 0 else T) with hF
  have hTmax : IsMaxOf vs T := by
    refine ⟨hperm.mem_iff.mp (List.getElem_mem hlast), fun y hy => ?_⟩
    obtain ⟨k, hk, rfl⟩ := List.mem_iff_getElem.mp (hperm.mem_iff.mpr hy)
    exact pairwise_le_getElem s hsorted k (s.length - 1) hk hlast (by omega)
  have hFchar : if 2 ≤ versions.length then IsMaxOf (vs.erase T) F else F = T := by
    by_cases h2 : 2 ≤ versions.length
    · rw [if_pos h2]
      have hdl : s.length - 2 < s.dropLast.length := by
        simp only [List.length_dropLast]
        omega
      have hdl2 : s.length - 2 < s.length := by omega
      have hFval : F = s[s.length - 2] := by
        rw [hF, if_pos h2, List.getD_eq_getElem _ _ hdl2]
      have hmaxdl : IsMaxOf s.dropLast F := by
        constructor
        · rw [hFval]
          have hm := List.getElem_mem hdl
          rwa [List.getElem_dropLast] at hm
        · intro y hy
          obtain ⟨k, hk, rfl⟩ := List.mem_iff_getElem.mp hy
          rw [List.getElem_dropLast, hFval]
          have hk2 : k < s.length - 1 := by
            simpa [List.length_dropLast] using hk
          exact pairwise_le_getElem s hsorted k (s.length - 2) (by omega) hdl2 (by omega)
      have hperase : (vs.erase T).Perm s.dropLast := by
        have h1 : (s.erase T).Perm (vs.erase T) := hperm.erase T
        have h3 : (s.erase (s.getLast hsne)).Perm s.dropLast :=
          erase_getLast_perm_dropLast s hsne
        rw [List.getLast_eq_getElem] at h3
        exact h1.symm.trans h3
      exact isMaxOf_of_perm hperase.symm hmaxdl
    · rw [if_neg h2, hF, if_neg h2]
  refine ⟨T, F, hTmax, hFchar, ?_⟩
  have hlen0 : ¬ (s.length = 0) := by omega
  have hTgetD : s.getD (s.length - 1) 0 = T := List.getD_eq_getElem _ _ hlast
  have hge : (s.length ≥ 2) ↔ (2 ≤ versions.length) := by rw [ge_iff_le, hslen]
  have hprev : (if s.length ≥ 2 then s.getD (s.length - 2) 0 else T) = F := by
    rw [hF]
    by_cases h2 : 2 ≤ versions.length
    · rw [if_pos (hge.mpr h2), if_pos h2]
    · rw [if_neg (fun hc => h2 (hge.mp hc)), if_neg h2]
  have hcontains : ∀ a : Int, s.contains a = decide (a ∈ vs) := by
    intro a
    by_cases hm : a ∈ s
    · simp [hm, hperm.mem_iff.mp hm]
    · have hm2 : a ∉ vs := fun hc => hm (hperm.mem_iff.mpr hc)
      simp [hm, hm2]
  have hunfold : selectPreferredDiffPair versions pf pt =
      ⟨some (if (match pf with | none => false | some v => s.contains v) then pf.getD 0 else F),
       some (if (match pt with | none => false | some v => s.contains v) then pt.getD 0 else T)⟩ := by
    simp only [selectPreferredDiffPair, ← hvs, ← hs]
    rw [if_neg hlen0, hTgetD, hprev]
  rw [hunfold]
  have hmem : ∀ a : Int, (a ∈ s) = (a ∈ vs) := fun a => propext hperm.mem_iff
  cases pf <;> cases pt <;> simp [hcontains, hmem]

/-- C2 witness: versions `[1,2,3]` with `preferredFrom = 1`, `preferredTo = 99`
yield `{fromVersion: 1, toVersion: 3}` (only the invalid side defaults). -/
theorem claim_C2_witness :
    selectPreferredDiffPair
      [⟨1, [], [], []⟩, ⟨2, [], [], []⟩, ⟨3, [], [], []⟩] (some 1) (some 99) =
      ⟨some 1, some 3⟩ := by
  obtain ⟨T, F, hT, hF, heq⟩ :=
    claim_C2 [⟨1, [], [], []⟩, ⟨2, [], [], []⟩, ⟨3, [], [], []⟩] (some 1) (some 99)
      (by decide)
  have hT3 : T = 3 := by
    obtain ⟨hm, hub⟩ := hT
    have h3 := hub 3 (by decide)
    simp at hm
    omega
  rw [heq, hT3]
  norm_num

/-! ## Comment masking: equivalence with the one-step machine, basic facts -/

theorem length_takeWhile_le (p : Char → Bool) (l : List Char) : (l.takeWhile p).length ≤ l.length := by
  induction l with
  | nil => simp
  | cons c cs ih =>
    rw [List.takeWhile_cons]
    by_cases h : p c = true <;> simp [h] <;> omega

theorem countPrecedingBackslashes_cons (c : Char) (p : List Char) :
    countPrecedingBackslashes (c :: p) =
      if c = '\\' then countPrecedingBackslashes p + 1 else 0 := by
  by_cases hc : c = '\\' <;> simp [countPrecedingBackslashes, List.takeWhile_cons, hc]

theorem maskStep_true_spec (rest : List Char) :
    maskStep true 0 rest =
      (rest.takeWhile (fun x => !(x = '\n'))).map (fun _ => ' ') ++
        (if (rest.takeWhile (fun x => !(x = '\n'))).length < rest.length then
          '\n' :: maskStep false 0 (rest.drop ((rest.takeWhile (fun x => !(x = '\n'))).length + 1))
        else []) := by
  induction rest with
  | nil => rfl
  | cons x rest2 ih =>
    by_cases hx : x = '\n'
    · subst hx
      simp [maskStep, List.takeWhile_cons]
    · rw [show maskStep true 0 (x :: rest2) = ' ' :: maskStep true 0 rest2 from by
        simp [maskStep, hx]]
      rw [ih]
      simp [List.takeWhile_cons, hx]

theorem stripCommentsGo_eq_maskStep (prevRev l : List Char) :
    stripCommentsGo prevRev l = maskStep false (countPrecedingBackslashes prevRev) l := by
  induction prevRev, l using stripCommentsGo.induct with
  | case1 prevRev => simp [stripCommentsGo, maskStep]
  | case2 a b hodd ih =>
    have h0 : countPrecedingBackslashes ('%' :: a) = 0 := by
      rw [countPrecedingBackslashes_cons, if_neg (by decide)]
    rw [h0] at ih
    simp [stripCommentsGo, maskStep, hodd, ih]
  | case3 a b heven d ih =>
    have h0 : ∀ t : List Char, countPrecedingBackslashes ('\n' :: t) = 0 := by
      intro t
      rw [countPrecedingBackslashes_cons, if_neg (by decide)]
    simp only [stripCommentsGo, maskStep, if_pos rfl, heven, if_false, if_true]
    rw [maskStep_true_spec b]
    by_cases hlt : (b.takeWhile (fun x => !(x = '\n'))).length < b.length
    · rw [if_pos hlt, if_pos hlt, ih hlt, h0]
      simp
    · rw [if_neg hlt, if_neg hlt]
      simp
  | case4 a b c hne ih =>
    rw [countPrecedingBackslashes_cons] at ih
    simp [stripCommentsGo, maskStep, hne, ih]

theorem stripComments_eq_maskStep (content : List Char) :
    stripCommentsPreservingLength content = maskStep false 0 content := by
  have h := stripCommentsGo_eq_maskStep [] content
  simpa [stripCommentsPreservingLength, countPrecedingBackslashes] using h

theorem maskStep_length (l : List Char) : ∀ (st : Bool) (run : Nat),
    (maskStep st run l).length = l.length := by
  induction l with
  | nil => intro st run; cases st <;> rfl
  | cons c cs ih =>
    intro st run
    cases st <;> simp only [maskStep] <;> split_ifs <;> simp [ih]

theorem maskStep_nl (l : List Char) : ∀ (st : Bool) (run : Nat) (i : Nat),
    ((maskStep st run l)[i]? = some '\n' ↔ l[i]? = some '\n') := by
  induction l with
  | nil => intro st run i; cases st <;> rfl
  | cons c cs ih =>
    intro st run i
    cases st <;> cases i <;>
      simp only [maskStep] <;> split_ifs <;>
      simp_all [List.getElem?_cons_succ, List.getElem?_cons_zero]

theorem maskStep_char (l : List Char) : ∀ (st : Bool) (run : Nat) (i : Nat),
    (maskStep st run l)[i]? = l[i]? ∨ (maskStep st run l)[i]? = some ' ' := by
  induction l with
  | nil => intro st run i; cases st <;> exact Or.inl rfl
  | cons c cs ih =>
    intro st run i
    cases st <;> cases i <;>
      simp only [maskStep] <;> split_ifs <;>
      simp_all [List.getElem?_cons_succ, List.getElem?_cons_zero]

theorem maskTrue_space (cs : List Char) : ∀ (r : Nat) (m : Nat), m < cs.length →
    (∀ k, k ≤ m → ¬ cs[k]? = some '\n') → (maskStep true r cs)[m]? = some ' ' := by
  induction cs with
  | nil => intro r m hm _; simp at hm
  | cons c cs2 ih =>
    intro r m hm hk
    have hc : ¬ c = '\n' := by
      intro h0
      exact hk 0 (by omega) (by simp [h0])
    cases m with
    | zero => simp [maskStep, hc]
    | succ m2 =>
      simp only [maskStep, if_neg hc, List.getElem?_cons_succ]
      exact ih 0 m2 (by simpa using hm) (fun k hk2 => by
        have := hk (k + 1) (by omega)
        simpa using this)

theorem maskTrue_split (pre : List Char) : ∀ (r : Nat) (cs2 : List Char),
    (∀ x ∈ pre, ¬ x = '\n') →
    maskStep true r (pre ++ '\n' :: cs2) =
      pre.map (fun _ => ' ') ++ '\n' :: maskStep false 0 cs2 := by
  induction pre with
  | nil => intro r cs2 _; simp [maskStep]
  | cons p pre2 ih =>
    intro r cs2 hp
    have hpn : ¬ p = '\n' := hp p (by simp)
    simp only [List.cons_append, maskStep, if_neg hpn, List.map_cons, List.append_eq]
    rw [ih 0 cs2 (fun x hx => hp x (by simp [hx]))]

theorem takeWhile_append_all (p : Char → Bool) (A B : List Char) (h : A.all p) :
    (A ++ B).takeWhile p = A ++ B.takeWhile p := by
  induction A with
  | nil => simp
  | cons a A2 ih =>
    simp only [List.all_cons, Bool.and_eq_true] at h
    simp [List.takeWhile_cons, h.1, ih h.2]

theorem takeWhile_append_not_all (p : Char → Bool) (A B : List Char) (h : ¬ A.all p = true) :
    (A ++ B).takeWhile p = A.takeWhile p := by
  induction A with
  | nil => simp at h
  | cons a A2 ih =>
    simp only [List.all_cons, Bool.and_eq_true] at h
    by_cases hpa : p a = true
    · have h2 : ¬ A2.all p = true := fun hc => h ⟨hpa, hc⟩
      simp [List.takeWhile_cons, hpa, ih h2]
    · simp [List.takeWhile_cons, hpa]

theorem countPreceding_append_break (A B : List Char) (b : Char) (hb : ¬ b = '\\') :
    countPrecedingBackslashes (A ++ b :: B) = countPrecedingBackslashes A := by
  unfold countPrecedingBackslashes
  by_cases hall : A.all (fun c => c = '\\') = true
  · rw [takeWhile_append_all _ _ _ hall]
    have hA : A.takeWhile (fun c => c = '\\') = A := List.takeWhile_eq_self_iff.mpr (by
      intro x hx
      exact (List.all_eq_true.mp hall) x hx)
    simp [List.takeWhile_cons, hb, hA]
  · rw [takeWhile_append_not_all _ _ _ hall]

theorem hybrid_step (c : Char) (cs : List Char) (run j2 : Nat) :
    countPrecedingBackslashes (((c :: cs).take (j2 + 1)).reverse) +
      (if ((c :: cs).take (j2 + 1)).all (fun x => x = '\\') then run else 0)
    = countPrecedingBackslashes ((cs.take j2).reverse) +
      (if (cs.take j2).all (fun x => x = '\\') then (if c = '\\' then run + 1 else 0) else 0) := by
  rw [List.take_succ_cons]
  set A := (cs.take j2).reverse with hA
  have hrev : (c :: cs.take j2).reverse = A ++ [c] := by simp [hA]
  have hallrev : (cs.take j2).all (fun x => x = '\\') = A.all (fun x => x = '\\') := by
    simp [hA]
  rw [hrev]
  by_cases hall : A.all (fun x => x = '\\') = true
  · have hlenA : countPrecedingBackslashes A = A.length := by
      unfold countPrecedingBackslashes
      rw [List.takeWhile_eq_self_iff.mpr (fun x hx => (List.all_eq_true.mp hall) x hx)]
    by_cases hc : c = '\\'
    · have hall2 : (c :: cs.take j2).all (fun x => x = '\\') = true := by
        simp only [List.all_cons, Bool.and_eq_true]
        exact ⟨by simp [hc], by rw [hallrev]; exact hall⟩
      have hcount : countPrecedingBackslashes (A ++ [c]) = A.length + 1 := by
        unfold countPrecedingBackslashes
        rw [takeWhile_append_all _ _ _ hall]
        simp [List.takeWhile_cons, hc]
      rw [hcount, if_pos hall2, hallrev, if_pos hall, if_pos hc, hlenA]
      omega
    · have hall2 : ¬ (c :: cs.take j2).all (fun x => x = '\\') = true := by
        simp only [List.all_cons, Bool.and_eq_true]
        rintro ⟨hc2, -⟩
        exact hc (by simpa using hc2)
      have hcount : countPrecedingBackslashes (A ++ [c]) = A.length := by
        unfold countPrecedingBackslashes
        rw [takeWhile_append_all _ _ _ hall]
        simp [List.takeWhile_cons, hc]
      rw [hcount, if_neg hall2, hallrev, if_pos hall, if_neg hc, hlenA]
  · have hall2 : ¬ (c :: cs.take j2).all (fun x => x = '\\') = true := by
      simp only [List.all_cons, Bool.and_eq_true]
      rintro ⟨-, hc2⟩
      rw [hallrev] at hc2
      exact hall hc2
    have hcount : countPrecedingBackslashes (A ++ [c]) = countPrecedingBackslashes A := by
      unfold countPrecedingBackslashes
      rw [takeWhile_append_not_all _ _ _ hall]
    rw [hcount, if_neg hall2, hallrev, if_neg hall]

theorem maskStep_comment_space : ∀ (n : Nat) (l : List Char), l.length ≤ n →
    ∀ (run j i : Nat), j ≤ i → i < l.length →
    l[j]? = some '%' →
    (countPrecedingBackslashes ((l.take j).reverse) +
      (if (l.take j).all (fun c => c = '\\') then run else 0)) % 2 = 0 →
    (∀ k, j < k → k ≤ i → ¬ l[k]? = some '\n') →
    (maskStep false run l)[i]? = some ' ' := by
  intro n
  induction n with
  | zero =>
    intro l hl run j i hji hi hj heven hnl
    omega
  | succ n ih =>
    intro l hl run j i hji hi hj heven hnl
    cases l with
    | nil => simp at hi
    | cons c cs =>
      have hcslen : cs.length ≤ n := by
        simp only [List.length_cons] at hl
        omega
      cases j with
      | zero =>
        have hc : c = '%' := by simpa using hj
        subst hc
        have hrun : run % 2 = 0 := by
          simpa [countPrecedingBackslashes] using heven
        have hbranch : maskStep false run ('%' :: cs) = ' ' :: maskStep true 0 cs := by
          have h1 : maskStep false run ('%' :: cs) =
              if run % 2 = 1 then '%' :: maskStep false 0 cs else ' ' :: maskStep true 0 cs := by
            simp [maskStep]
          rw [h1, if_neg (by omega)]
        rw [hbranch]
        cases i with
        | zero => simp
        | succ i2 =>
          simp only [List.getElem?_cons_succ]
          refine maskTrue_space cs 0 i2 (by simpa using hi) ?_
          intro k hk
          have h2 := hnl (k + 1) (by omega) (by omega)
          simpa using h2
      | succ j2 =>
        have hj' : cs[j2]? = some '%' := by simpa using hj
        have heven' := heven
        rw [show ((c :: cs).take (j2 + 1)) = c :: cs.take j2 from List.take_succ_cons] at heven'
        rw [show (c :: cs.take j2).reverse = (cs.take j2).reverse ++ [c] from by simp] at heven'
        rw [show countPrecedingBackslashes ((cs.take j2).reverse ++ [c]) +
              (if (c :: cs.take j2).all (fun x => x = '\\') then run else 0)
            = countPrecedingBackslashes (((c :: cs).take (j2 + 1)).reverse) +
              (if ((c :: cs).take (j2 + 1)).all (fun x => x = '\\') then run else 0) from by
          rw [List.take_succ_cons]
          simp] at heven'
        rw [hybrid_step] at heven'
        cases i with
        | zero => omega
        | succ i2 =>
        have hji2 : j2 ≤ i2 := by omega
        have hi2 : i2 < cs.length := by simpa using hi
        have hnl' : ∀ k, j2 < k → k ≤ i2 → ¬ cs[k]? = some '\n' := by
          intro k hk1 hk2
          have h2 := hnl (k + 1) (by omega) (by omega)
          simpa using h2
        by_cases hc : c = '%'
        · subst hc
          rw [if_neg (by decide : ¬ ('%' = '\\'))] at heven'
          by_cases hodd : run % 2 = 1
          · have hbranch : maskStep false run ('%' :: cs) = '%' :: maskStep false 0 cs := by
              have h1 : maskStep false run ('%' :: cs) =
                  if run % 2 = 1 then '%' :: maskStep false 0 cs else ' ' :: maskStep true 0 cs := by
                simp [maskStep]
              rw [h1, if_pos hodd]
            rw [hbranch]
            simp only [List.getElem?_cons_succ]
            exact ih cs hcslen 0 j2 i2 hji2 hi2 hj' heven' hnl'
          · have hbranch : maskStep false run ('%' :: cs) = ' ' :: maskStep true 0 cs := by
              have h1 : maskStep false run ('%' :: cs) =
                  if run % 2 = 1 then '%' :: maskStep false 0 cs else ' ' :: maskStep true 0 cs := by
                simp [maskStep]
              rw [h1, if_neg hodd]
            rw [hbranch]
            simp only [List.getElem?_cons_succ]
            by_cases hnonl : ∀ k, k ≤ i2 → ¬ cs[k]? = some '\n'
            · exact maskTrue_space cs 0 i2 hi2 hnonl
            · push_neg at hnonl
              obtain ⟨k0, hk0le, hk0⟩ := hnonl
              have hex : ∃ k, cs[k]? = some '\n' := ⟨k0, hk0⟩
              set t := Nat.find hex with htdef
              have ht : cs[t]? = some '\n' := Nat.find_spec hex
              have htmin : ∀ m, m < t → ¬ cs[m]? = some '\n' := fun m hm => Nat.find_min hex hm
              have ht_le : t ≤ k0 := Nat.find_min' hex hk0
              have htj2 : t < j2 := by
                rcases Nat.lt_trichotomy t j2 with h1 | h1 | h1
                · exact h1
                · exfalso
                  rw [h1] at ht
                  rw [ht] at hj'
                  simp at hj'
                · exfalso
                  exact hnl' t h1 (by omega) ht
              obtain ⟨htlen, htval⟩ := List.getElem?_eq_some.mp ht
              have hdecomp : cs = cs.take t ++ '\n' :: cs.drop (t + 1) := by
                conv_lhs => rw [← List.take_append_drop t cs]
                congr 1
                rw [List.drop_eq_getElem_cons htlen, htval]
              have hprelen : (cs.take t).length = t := by
                rw [List.length_take]
                omega
              have hprenl : ∀ x ∈ cs.take t, ¬ x = '\n' := by
                intro x hx
                obtain ⟨m, hm, hxm⟩ := List.mem_iff_getElem.mp hx
                rw [List.getElem_take] at hxm
                intro hxeq
                refine htmin m (by rwa [hprelen] at hm) ?_
                rw [List.getElem?_eq_some]
                exact ⟨by omega, by rw [hxm, hxeq]⟩
              conv_lhs => rw [hdecomp]
              rw [maskTrue_split (cs.take t) 0 (cs.drop (t + 1)) hprenl]
              have hmaplen : ((cs.take t).map (fun _ => ' ')).length = t := by
                rw [List.length_map, hprelen]
              rw [List.getElem?_append_right (by omega)]
              rw [hmaplen]
              rw [show i2 - t = (i2 - t - 1) + 1 from by omega]
              rw [List.getElem?_cons_succ]
              have hlen2 : (cs.drop (t + 1)).length = cs.length - (t + 1) := by
                simp [List.length_drop]
              refine ih (cs.drop (t + 1)) (by omega) 0 (j2 - t - 1) (i2 - t - 1)
                (by omega) (by omega) ?_ ?_ ?_
              · rw [List.getElem?_drop]
                rw [show t + 1 + (j2 - t - 1) = j2 from by omega]
                exact hj'
              · have htake : cs.take j2 = cs.take t ++ '\n' :: (cs.drop (t + 1)).take (j2 - t - 1) := by
                  conv_lhs =>
                    rw [hdecomp, show j2 = (cs.take t).length + (1 + (j2 - t - 1)) from by omega]
                  rw [List.take_append]
                  rw [show 1 + (j2 - t - 1) = (j2 - t - 1) + 1 from by omega, List.take_succ_cons]
                rw [htake] at heven'
                rw [show (cs.take t ++ '\n' :: (cs.drop (t + 1)).take (j2 - t - 1)).reverse
                    = ((cs.drop (t + 1)).take (j2 - t - 1)).reverse ++
                        '\n' :: (cs.take t).reverse from by simp] at heven'
                rw [countPreceding_append_break _ _ _ (by decide)] at heven'
                rw [ite_self] at heven'
                rw [ite_self]
                exact heven'
              · intro k hk1 hk2
                rw [List.getElem?_drop]
                refine hnl' (t + 1 + k) (by omega) (by omega)
        · have hbranch : maskStep false run (c :: cs) =
              c :: maskStep false (if c = '\\' then run + 1 else 0) cs := by
            simp [maskStep, hc]
          rw [hbranch]
          simp only [List.getElem?_cons_succ]
          exact ih cs hcslen (if c = '\\' then run + 1 else 0) j2 i2 hji2 hi2 hj' heven' hnl'

theorem lineStartsGo_congr : ∀ (a b : List Char) (i : Nat), a.length = b.length →
    (∀ k : Nat, a[k]? = some '\n' ↔ b[k]? = some '\n') → lineStartsGo i a = lineStartsGo i b := by
  intro a
  induction a with
  | nil =>
    intro b i hlen _
    have hb : b = [] := by
      cases b with
      | nil => rfl
      | cons y ys => simp at hlen
    subst hb
    rfl
  | cons x xs ih =>
    intro b i hlen hnl
    cases b with
    | nil => simp at hlen
    | cons y ys =>
      have h0 := hnl 0
      simp only [List.getElem?_cons_zero, Option.some_inj] at h0
      have htail : lineStartsGo (i + 1) xs = lineStartsGo (i + 1) ys := by
        refine ih ys (i + 1) (by simpa using hlen) ?_
        intro k
        have := hnl (k + 1)
        simpa using this
      by_cases hx : x = '\n'
      · have hy : y = '\n' := h0.mp hx
        simp [lineStartsGo, hx, hy, htail]
      · have hy : ¬ y = '\n' := fun hc => hx (h0.mpr hc)
        simp [lineStartsGo, hx, hy, htail]

theorem buildLineStartIndices_strip (content : List Char) :
    buildLineStartIndices (stripCommentsPreservingLength content) =
      buildLineStartIndices content := by
  unfold buildLineStartIndices
  congr 1
  refine lineStartsGo_congr _ _ 0 ?_ ?_
  · rw [stripComments_eq_maskStep, maskStep_length]
  · intro k
    rw [stripComments_eq_maskStep]
    exact maskStep_nl content false 0 k

/-- C7: a sectioning command standing after an unescaped `%` on its line is
never emitted as a heading: the comment masking is length-preserving, keeps
every newline in place (so the line-start table of the masked text is that of
the original), turns every other character into itself or a space, and maps
every position that lies in a comment (at or after an unescaped `%` with no
newline in between) to a space; concretely, a document whose only
`\section{...}` sits behind a `%` yields an empty outline. -/
theorem claim_C7 (content : List Char) :
    (stripCommentsPreservingLength content).length = content.length ∧
    (∀ i : Nat, (stripCommentsPreservingLength content)[i]? = content[i]? ∨
      (stripCommentsPreservingLength content)[i]? = some ' ') ∧
    (∀ i : Nat, (stripCommentsPreservingLength content)[i]? = some '\n' ↔ content[i]? = some '\n') ∧
    (∀ j i : Nat, j ≤ i → i < content.length → content[j]? = some '%' →
      countPrecedingBackslashes ((content.take j).reverse) % 2 = 0 →
      (∀ k : Nat, j < k → k ≤ i → ¬ content[k]? = some '\n') →
      (stripCommentsPreservingLength content)[i]? = some ' ') ∧
    buildLineStartIndices (stripCommentsPreservingLength content) =
      buildLineStartIndices content ∧
    parseTexOutline (("ab % \\section\x7bHi\x7d").data) = ⟨1, []⟩ := by
  refine ⟨?_, ?_, ?_, ?_, buildLineStartIndices_strip content, ?_⟩
  · rw [stripComments_eq_maskStep, maskStep_length]
  · intro i
    rw [stripComments_eq_maskStep]
    exact maskStep_char content false 0 i
  · intro i
    rw [stripComments_eq_maskStep]
    exact maskStep_nl content false 0 i
  · intro j i hji hi hj heven hnl
    rw [stripComments_eq_maskStep]
    refine maskStep_comment_space content.length content (le_refl _) 0 j i hji hi hj ?_ hnl
    rw [ite_self]
    simpa using heven
  · have hsan : stripCommentsPreservingLength (("ab % \\section\x7bHi\x7d").data) =
        ['a', 'b', ' ', ' ', ' ', ' ', ' ', ' ', ' ', ' ', ' ', ' ', ' ', ' ', ' ', ' ', ' '] := by
      rw [stripComments_eq_maskStep]
      decide
    simp only [parseTexOutline, hsan]
    norm_num [scanSections]
    decide

/-- C7 witness at a concrete input: masking `"a%b"` keeps the length and puts a
space at the commented position 2. -/
theorem claim_C7_witness :
    (stripCommentsPreservingLength (("a%b").data)).length = (("a%b").data).length ∧
    (stripCommentsPreservingLength (("a%b").data))[2]? = some ' ' := by
  refine ⟨(claim_C7 (("a%b").data)).1, ?_⟩
  refine (claim_C7 (("a%b").data)).2.2.2.1 1 2 (by omega) (by decide) (by decide) (by decide) ?_
  intro k hk1 hk2
  have hk : k = 2 := by omega
  subst hk
  decide

/-! ## splitOnNl / joinNl structure -/

theorem splitOnNl_ne_nil (l : List Char) : splitOnNl l ≠ [] := by
  cases l with
  | nil => simp [splitOnNl]
  | cons c rest =>
    simp only [splitOnNl]
    by_cases hc : c = '\n' <;> simp [hc]

theorem splitOnNl_nonNl (l : List Char) : ∀ piece ∈ splitOnNl l, '\n' ∉ piece := by
  induction l with
  | nil =>
    intro piece hp
    simp [splitOnNl] at hp
    simp [hp]
  | cons c rest ih =>
    intro piece hp
    cases hr : splitOnNl rest with
    | nil => exact absurd hr (splitOnNl_ne_nil rest)
    | cons p ps =>
      simp only [splitOnNl, hr] at hp
      by_cases hc : c = '\n'
      · rw [if_pos hc] at hp
        rcases List.mem_cons.mp hp with h1 | h1
        · simp [h1]
        · exact ih piece (by rw [hr]; exact h1)
      · rw [if_neg hc] at hp
        rcases List.mem_cons.mp hp with h1 | h1
        · subst h1
          intro hmem
          rcases List.mem_cons.mp hmem with h2 | h2
          · exact hc h2.symm
          · exact ih p (by rw [hr]; simp) h2
        · simp only [List.tail_cons] at h1
          exact ih piece (by rw [hr]; exact List.mem_cons_of_mem p h1)

theorem splitOnNl_single (a : List Char) (ha : '\n' ∉ a) : splitOnNl a = [a] := by
  induction a with
  | nil => rfl
  | cons c a2 ih =>
    have hc : ¬ c = '\n' := fun h => ha (by simp [h])
    have h2 : splitOnNl a2 = [a2] := ih (fun h => ha (by simp [h]))
    simp [splitOnNl, h2, hc]

theorem splitOnNl_append (a rest : List Char) (ha : '\n' ∉ a) :
    splitOnNl (a ++ '\n' :: rest) = a :: splitOnNl rest := by
  induction a with
  | nil => simp [splitOnNl]
  | cons c a2 ih =>
    have hc : ¬ c = '\n' := fun h => ha (by simp [h])
    have h2 := ih (fun h => ha (by simp [h]))
    simp [splitOnNl, h2, hc]

theorem joinNl_cons (l : List Char) (ls : List (List Char)) (h : ls ≠ []) :
    joinNl (l :: ls) = l ++ '\n' :: joinNl ls := by
  cases ls with
  | nil => exact absurd rfl h
  | cons y ys => rfl

theorem splitOnNl_joinNl : ∀ (ls : List (List Char)), ls ≠ [] →
    (∀ p ∈ ls, '\n' ∉ p) → splitOnNl (joinNl ls) = ls := by
  intro ls
  induction ls with
  | nil => intro h; exact absurd rfl h
  | cons x tl ih =>
    intro _ hnl
    cases tl with
    | nil => exact splitOnNl_single x (hnl x (by simp))
    | cons y ys =>
      rw [joinNl_cons x (y :: ys) (by simp)]
      rw [splitOnNl_append x _ (hnl x (by simp))]
      rw [ih (by simp) (fun p hp => hnl p (by simp [hp]))]

/-! ## transformLine characterization and idempotence (C8) -/

theorem fuGo_some : ∀ (rest prevRev : List Char) (i : Nat),
    firstUnescapedPercentGo prevRev rest = some i →
    rest[i]? = some '%' ∧
    countPrecedingBackslashes ((rest.take i).reverse ++ prevRev) % 2 = 0 ∧
    ∀ j : Nat, j < i →
      ¬ (rest[j]? = some '%' ∧
         countPrecedingBackslashes ((rest.take j).reverse ++ prevRev) % 2 = 0) := by
  intro rest
  induction rest with
  | nil => intro prevRev i h; simp [firstUnescapedPercentGo] at h
  | cons c rest2 ih =>
    intro prevRev i h
    by_cases hcond : c = '%' ∧ countPrecedingBackslashes prevRev % 2 = 0
    · have hb : (decide (c = '%') && (countPrecedingBackslashes prevRev % 2 == 0)) = true := by
        simp [hcond.1, hcond.2]
      rw [firstUnescapedPercentGo, if_pos hb] at h
      have hi : i = 0 := by simpa using h.symm
      subst hi
      refine ⟨by simp [hcond.1], by simpa [countPrecedingBackslashes] using hcond.2, ?_⟩
      intro j hj
      omega
    · have hb : ¬ (decide (c = '%') && (countPrecedingBackslashes prevRev % 2 == 0)) = true := by
        intro hc2
        simp only [Bool.and_eq_true, decide_eq_true_eq, beq_iff_eq] at hc2
        exact hcond hc2
      rw [firstUnescapedPercentGo, if_neg hb] at h
      obtain ⟨i2, hi2, hii⟩ := Option.map_eq_some'.mp h
      obtain ⟨h1, h2, h3⟩ := ih (c :: prevRev) i2 hi2
      subst hii
      refine ⟨by simpa using h1, ?_, ?_⟩
      · rw [List.take_succ_cons]
        rw [show (c :: rest2.take i2).reverse ++ prevRev
            = (rest2.take i2).reverse ++ (c :: prevRev) from by simp]
        exact h2
      · intro j hj
        cases j with
        | zero =>
          rintro ⟨hp, he⟩
          simp only [List.getElem?_cons_zero, Option.some_inj] at hp
          refine hcond ⟨hp, ?_⟩
          simpa [countPrecedingBackslashes] using he
        | succ j2 =>
          rintro ⟨hp, he⟩
          refine h3 j2 (by omega) ⟨by simpa using hp, ?_⟩
          rw [List.take_succ_cons] at he
          rw [show (c :: rest2.take j2).reverse ++ prevRev
              = (rest2.take j2).reverse ++ (c :: prevRev) from by simp] at he
          exact he

theorem fu_take_none (line : List Char) (i : Nat)
    (hfu : firstUnescapedPercent line = some i) (m : Nat) (hm : m ≤ i) :
    firstUnescapedPercent (line.take m) = none := by
  cases h2 : firstUnescapedPercentGo [] (line.take m) with
  | none => exact h2
  | some j =>
    obtain ⟨hj_pct, hj_even, _⟩ := fuGo_some _ _ _ h2
    obtain ⟨hl_pct, hl_even, hl_min⟩ := fuGo_some _ _ _ hfu
    have hjlt : j < m := by
      have := (List.getElem?_eq_some.mp hj_pct).1
      rw [List.length_take] at this
      omega
    rw [List.getElem?_take, if_pos hjlt] at hj_pct
    rw [List.take_take] at hj_even
    rw [show j ⊓ m = j from by omega] at hj_even
    exact absurd ⟨hj_pct, hj_even⟩ (hl_min j (by omega))

theorem rstripHorizontal_prefix (l : List Char) :
    ∃ m : Nat, rstripHorizontal l = l.take m := by
  have hsuf : (l.reverse.dropWhile (fun c => c = ' ' || c = '\t')) <:+ l.reverse :=
    List.dropWhile_suffix _
  have hpre : rstripHorizontal l <+: l := by
    unfold rstripHorizontal
    rw [show l = l.reverse.reverse from by simp]
    rw [List.reverse_prefix]
    simpa using hsuf
  exact ⟨(rstripHorizontal l).length, List.prefix_iff_eq_take.mp hpre⟩

theorem transformedLine_prefix (line : List Char) :
    ∃ m : Nat, (transformLine line).transformedLine = line.take m := by
  unfold transformLine
  cases hfu : firstUnescapedPercent line with
  | none => exact ⟨line.length, by simp⟩
  | some i =>
    cases i with
    | zero => exact ⟨0, by simp⟩
    | succ i2 =>
      obtain ⟨m, hm⟩ := rstripHorizontal_prefix (line.take (i2 + 1))
      refine ⟨m ⊓ (i2 + 1), ?_⟩
      simp only
      rw [hm, List.take_take]

theorem transformLine_fu_none (line : List Char) :
    firstUnescapedPercent ((transformLine line).transformedLine) = none := by
  cases hfu : firstUnescapedPercent line with
  | none => simp [transformLine, hfu]
  | some i =>
    cases i with
    | zero => simp [transformLine, hfu]; rfl
    | succ i2 =>
      have htl : (transformLine line).transformedLine = rstripHorizontal (line.take (i2 + 1)) := by
        simp [transformLine, hfu]
      rw [htl]
      obtain ⟨m, hm⟩ := rstripHorizontal_prefix (line.take (i2 + 1))
      rw [hm, List.take_take]
      exact fu_take_none line (i2 + 1) hfu _ (by omega)

theorem transformLine_idem (line : List Char) :
    transformLine ((transformLine line).transformedLine) =
      ⟨false, (transformLine line).transformedLine⟩ := by
  have h := transformLine_fu_none line
  generalize hgen : (transformLine line).transformedLine = t at h ⊢
  simp [transformLine, h]

theorem filterMap_eq_self {α : Type} (F : α → Option α) :
    ∀ (l : List α), (∀ s ∈ l, F s = some s) → l.filterMap F = l := by
  intro l
  induction l with
  | nil => intro _; rfl
  | cons a l2 ih =>
    intro h
    rw [List.filterMap_cons, h a (by simp), ih (fun s hs => h s (by simp [hs]))]

theorem transformedLine_nonNl (line : List Char) (h : '\n' ∉ line) :
    '\n' ∉ (transformLine line).transformedLine := by
  obtain ⟨m, hm⟩ := transformedLine_prefix line
  rw [hm]
  intro hmem
  exact h (List.take_subset m line hmem)

theorem keepTransformedLine_of_mem (x : List Char) (s : List Char)
    (hs : s ∈ (splitOnNl x).filterMap keepTransformedLine) :
    transformLine s = ⟨false, s⟩ ∧ '\n' ∉ s := by
  obtain ⟨line, hline, hFs⟩ := List.mem_filterMap.mp hs
  unfold keepTransformedLine at hFs
  simp only at hFs
  by_cases hrm : (transformLine line).removeLine
  · rw [if_pos hrm] at hFs
    exact absurd hFs (by simp)
  · rw [if_neg hrm] at hFs
    have hseq : s = (transformLine line).transformedLine := by
      simpa using hFs.symm
    subst hseq
    exact ⟨transformLine_idem line,
      transformedLine_nonNl line (splitOnNl_nonNl x line hline)⟩

/-- C8: stripping LaTeX comments is idempotent. -/
theorem claim_C8 (x : List Char) :
    stripLatexComments (stripLatexComments x) = stripLatexComments x := by
  cases hsv : (splitOnNl x).filterMap keepTransformedLine with
  | nil =>
    have hx : stripLatexComments x = [] := by
      unfold stripLatexComments
      rw [hsv]
      rfl
    rw [hx]
    decide
  | cons s0 rest =>
    have hx : stripLatexComments x = joinNl (s0 :: rest) := by
      unfold stripLatexComments
      rw [hsv]
    rw [hx]
    show joinNl ((splitOnNl (joinNl (s0 :: rest))).filterMap keepTransformedLine) = _
    rw [splitOnNl_joinNl (s0 :: rest) (by simp) (fun p hp =>
      (keepTransformedLine_of_mem x p (by rw [hsv]; exact hp)).2)]
    rw [filterMap_eq_self _ (s0 :: rest) (fun s hs => by
      have h2 := (keepTransformedLine_of_mem x s (by rw [hsv]; exact hs)).1
      unfold keepTransformedLine
      simp only [h2]
      rfl)]

/-! ## Visible line map (C5) -/

theorem visibleLineMapGo_length (ls : List (List Char)) : ∀ v : Nat,
    (visibleLineMapGo v ls).length = ls.length := by
  induction ls with
  | nil => intro v; rfl
  | cons line rest ih =>
    intro v
    by_cases h : (transformLine line).removeLine <;> simp [visibleLineMapGo, h, ih]

theorem visibleLineMapGo_lower (ls : List (List Char)) : ∀ (v : Nat),
    ∀ x ∈ visibleLineMapGo v ls, x = 0 ∨ v < x := by
  induction ls with
  | nil => intro v x hx; simp [visibleLineMapGo] at hx
  | cons line rest ih =>
    intro v x hx
    by_cases h : (transformLine line).removeLine
    · rw [show visibleLineMapGo v (line :: rest) = 0 :: visibleLineMapGo v rest from by
        simp [visibleLineMapGo, h]] at hx
      rcases List.mem_cons.mp hx with h1 | h1
      · exact Or.inl h1
      · exact ih v x h1
    · rw [show visibleLineMapGo v (line :: rest)
          = (v + 1) :: visibleLineMapGo (v + 1) rest from by
        simp [visibleLineMapGo, h]] at hx
      rcases List.mem_cons.mp hx with h1 | h1
      · exact Or.inr (by omega)
      · rcases ih (v + 1) x h1 with h2 | h2
        · exact Or.inl h2
        · exact Or.inr (by omega)

theorem visibleLineMapGo_pairwise (ls : List (List Char)) : ∀ (v : Nat),
    List.Pairwise (fun a b => a ≠ 0 → b ≠ 0 → a < b) (visibleLineMapGo v ls) := by
  induction ls with
  | nil => intro v; simp [visibleLineMapGo]
  | cons line rest ih =>
    intro v
    by_cases h : (transformLine line).removeLine
    · rw [show visibleLineMapGo v (line :: rest) = 0 :: visibleLineMapGo v rest from by
        simp [visibleLineMapGo, h]]
      exact List.Pairwise.cons (fun b _ h0 _ => absurd rfl h0) (ih v)
    · rw [show visibleLineMapGo v (line :: rest)
          = (v + 1) :: visibleLineMapGo (v + 1) rest from by
        simp [visibleLineMapGo, h]]
      refine List.Pairwise.cons ?_ (ih (v + 1))
      intro b hb _ hb0
      rcases visibleLineMapGo_lower rest (v + 1) b hb with h1 | h1
      · exact absurd h1 hb0
      · omega

theorem visibleLineMapGo_countP (ls : List (List Char)) : ∀ (v : Nat),
    (visibleLineMapGo v ls).countP (fun n => decide (n ≠ 0)) =
      (ls.filterMap keepTransformedLine).length := by
  induction ls with
  | nil => intro v; rfl
  | cons line rest ih =>
    intro v
    by_cases h : (transformLine line).removeLine
    · rw [show visibleLineMapGo v (line :: rest) = 0 :: visibleLineMapGo v rest from by
        simp [visibleLineMapGo, h]]
      rw [List.countP_cons, List.filterMap_cons]
      rw [show keepTransformedLine line = none from by simp [keepTransformedLine, h]]
      rw [if_neg (by decide), Nat.add_zero]
      exact ih v
    · rw [show visibleLineMapGo v (line :: rest)
          = (v + 1) :: visibleLineMapGo (v + 1) rest from by
        simp [visibleLineMapGo, h]]
      rw [List.countP_cons, List.filterMap_cons]
      rw [show keepTransformedLine line = some (transformLine line).transformedLine from by
        simp [keepTransformedLine, h]]
      rw [if_pos (by simp), List.length_cons, ih (v + 1)]

theorem visibleLineMapGo_zero_iff (ls : List (List Char)) : ∀ (v i : Nat),
    (visibleLineMapGo v ls)[i]? = some 0 ↔
      ∃ line, ls[i]? = some line ∧ (transformLine line).removeLine = true := by
  induction ls with
  | nil => intro v i; simp [visibleLineMapGo]
  | cons line rest ih =>
    intro v i
    by_cases h : (transformLine line).removeLine
    · rw [show visibleLineMapGo v (line :: rest) = 0 :: visibleLineMapGo v rest from by
        simp [visibleLineMapGo, h]]
      cases i with
      | zero => simp [h]
      | succ i2 =>
        rw [List.getElem?_cons_succ, List.getElem?_cons_succ]
        exact ih v i2
    · rw [show visibleLineMapGo v (line :: rest)
          = (v + 1) :: visibleLineMapGo (v + 1) rest from by
        simp [visibleLineMapGo, h]]
      cases i with
      | zero => simp [h]
      | succ i2 =>
        rw [List.getElem?_cons_succ, List.getElem?_cons_succ]
        exact ih (v + 1) i2

/-- C5 (amended): the visible-line map has one entry per original line, its
nonzero values strictly increase in original line order, an entry is 0 exactly
when its line is dropped as a pure comment, and whenever at least one line
survives, the number of nonzero entries equals the number of lines of
`stripLatexComments text`.  (When every line is dropped the stripped text is
empty, which still counts as one line under the split convention, while the
map has zero nonzero entries.) -/
theorem claim_C5 (text : List Char) :
    (buildVisibleLineMapAfterCommentStrip text).length = (splitOnNl text).length ∧
    List.Pairwise (fun a b => a ≠ 0 → b ≠ 0 → a < b)
      (buildVisibleLineMapAfterCommentStrip text) ∧
    (∀ i : Nat, (buildVisibleLineMapAfterCommentStrip text)[i]? = some 0 ↔
      ∃ line, (splitOnNl text)[i]? = some line ∧ (transformLine line).removeLine = true) ∧
    ((buildVisibleLineMapAfterCommentStrip text).countP (fun n => decide (n ≠ 0)) ≠ 0 →
      (buildVisibleLineMapAfterCommentStrip text).countP (fun n => decide (n ≠ 0)) =
        (splitOnNl (stripLatexComments text)).length) := by
  refine ⟨visibleLineMapGo_length (splitOnNl text) 0,
    visibleLineMapGo_pairwise (splitOnNl text) 0,
    fun i => visibleLineMapGo_zero_iff (splitOnNl text) 0 i, ?_⟩
  intro hne
  show (visibleLineMapGo 0 (splitOnNl text)).countP (fun n => decide (n ≠ 0)) = _
  rw [visibleLineMapGo_countP (splitOnNl text) 0]
  have hne2 : (splitOnNl text).filterMap keepTransformedLine ≠ [] := by
    intro hc
    refine hne ?_
    show (visibleLineMapGo 0 (splitOnNl text)).countP (fun n => decide (n ≠ 0)) = 0
    rw [visibleLineMapGo_countP (splitOnNl text) 0, hc]
    rfl
  cases hsv : (splitOnNl text).filterMap keepTransformedLine with
  | nil => exact absurd hsv hne2
  | cons s0 rest =>
    have hnl : ∀ p ∈ s0 :: rest, '\n' ∉ p := fun p hp =>
      (keepTransformedLine_of_mem text p (by rw [hsv]; exact hp)).2
    have hstrip : stripLatexComments text = joinNl (s0 :: rest) := by
      unfold stripLatexComments
      rw [hsv]
    rw [hstrip, splitOnNl_joinNl (s0 :: rest) (by simp) hnl]

/-- C5 counterexample to the claim as stated: for `"%a"` every line is a pure
comment, the map is `[0]` with zero nonzero entries, but the stripped text is
the empty string, which has one line. -/
theorem claim_C5_counterexample :
    ¬ ((buildVisibleLineMapAfterCommentStrip (("%a").data)).countP (fun n => decide (n ≠ 0)) =
       (splitOnNl (stripLatexComments (("%a").data))).length) := by
  decide

/-- C5 witness: on `"a\n%b"` one line survives and the nonzero-entry count
matches the line count of the stripped text. -/
theorem claim_C5_witness :
    (buildVisibleLineMapAfterCommentStrip (("a\n%b").data)).countP (fun n => decide (n ≠ 0)) =
      (splitOnNl (stripLatexComments (("a\n%b").data))).length :=
  (claim_C5 (("a\n%b").data)).2.2.2 (by decide)

/-! ## findLineNumber correctness (C10, C4) -/

theorem pairwise_le_getElem_nat (s : List Nat) (hp : s.Pairwise (fun a b : Nat => a ≤ b))
    (i j : Nat) (hi : i < s.length) (hj : j < s.length) (hij : i ≤ j) : s[i] ≤ s[j] := by
  rcases Nat.eq_or_lt_of_le hij with rfl | hlt
  · exact le_refl _
  · exact List.pairwise_iff_getElem.mp hp i j hi hj hlt

theorem countP_of_iff (p : Nat → Bool) : ∀ (l : List Nat) (m : Nat), m ≤ l.length →
    (∀ (k : Nat) (hk : k < l.length), (p l[k] = true ↔ k < m)) → l.countP p = m := by
  intro l
  induction l with
  | nil =>
    intro m hm _
    have hm0 : m = 0 := by simpa using hm
    subst hm0
    rfl
  | cons a l2 ih =>
    intro m hm hiff
    rw [List.countP_cons]
    cases m with
    | zero =>
      have ha : ¬ p a = true := by
        intro hc
        have := (hiff 0 (by simp)).mp (by simpa using hc)
        omega
      rw [if_neg ha, Nat.add_zero]
      refine ih 0 (by omega) ?_
      intro k hk
      constructor
      · intro hc
        have := (hiff (k + 1) (by simpa using hk)).mp (by simpa using hc)
        omega
      · omega
    | succ m2 =>
      have ha : p a = true := (hiff 0 (by simp)).mpr (by omega)
      rw [if_pos ha]
      have h2 : l2.countP p = m2 := by
        refine ih m2 (by simpa using hm) ?_
        intro k hk
        constructor
        · intro hc
          have := (hiff (k + 1) (by simpa using hk)).mp (by simpa using hc)
          omega
        · intro hc
          have := (hiff (k + 1) (by simpa using hk)).mpr (by omega)
          simpa using this
      omega

theorem findLineNumberGo_spec (index : Nat) (starts : List Nat)
    (hp : starts.Pairwise (fun a b : Nat => a ≤ b)) :
    ∀ (fuel : Nat) (low high : Int), (high + 1 - low).toNat ≤ fuel →
    0 ≤ low → high < (starts.length : Int) → low ≤ high + 1 →
    (∀ (k : Nat) (hk : k < starts.length), (k : Int) < low → starts[k] ≤ index) →
    (∀ (k : Nat) (hk : k < starts.length), (k : Int) > high → index < starts[k]) →
    findLineNumberGo index starts low high =
      ((starts.countP (fun s => decide (s ≤ index)) : Nat) : Int) := by
  intro fuel
  induction fuel with
  | zero =>
    intro low high hfuel h0 hhi hlh hinv1 hinv2
    have hlow : low > high := by omega
    unfold findLineNumberGo
    rw [if_pos hlow]
    have hcount : starts.countP (fun s => decide (s ≤ index)) = (high + 1).toNat := by
      refine countP_of_iff _ starts (high + 1).toNat (by omega) ?_
      intro k hk
      simp only [decide_eq_true_eq]
      constructor
      · intro hc
        by_contra hcon
        have hgt : (k : Int) > high := by omega
        have := hinv2 k hk hgt
        omega
      · intro hc
        have hlt : (k : Int) < low := by omega
        exact hinv1 k hk hlt
    rw [hcount]
    omega
  | succ fuel2 ih =>
    intro low high hfuel h0 hhi hlh hinv1 hinv2
    by_cases hlow : low > high
    · unfold findLineNumberGo
      rw [if_pos hlow]
      have hcount : starts.countP (fun s => decide (s ≤ index)) = (high + 1).toNat := by
        refine countP_of_iff _ starts (high + 1).toNat (by omega) ?_
        intro k hk
        simp only [decide_eq_true_eq]
        constructor
        · intro hc
          by_contra hcon
          have hgt : (k : Int) > high := by omega
          have := hinv2 k hk hgt
          omega
        · intro hc
          have hlt : (k : Int) < low := by omega
          exact hinv1 k hk hlt
      rw [hcount]
      omega
    · have hle : low ≤ high := by omega
      set mid := (low + high) / 2 with hmid
      have hmid1 : low ≤ mid := by omega
      have hmid2 : mid ≤ high := by omega
      have hmidlen : mid.toNat < starts.length := by omega
      have hgetD : starts.getD mid.toNat 0 = starts[mid.toNat] :=
        List.getD_eq_getElem starts 0 hmidlen
      unfold findLineNumberGo
      rw [if_neg hlow, ← hmid, hgetD]

      by_cases hcmp : starts[mid.toNat] ≤ index
      · rw [if_pos hcmp]
        refine ih (mid + 1) high (by omega) (by omega) hhi (by omega) ?_ hinv2
        intro k hk hklt
        have hkle : k ≤ mid.toNat := by omega
        exact le_trans (pairwise_le_getElem_nat starts hp k mid.toNat hk hmidlen hkle) hcmp
      · rw [if_neg hcmp]
        refine ih low (mid - 1) (by omega) h0 (by omega) (by omega) hinv1 ?_
        intro k hk hkgt
        have hkge : mid.toNat ≤ k := by omega
        exact lt_of_lt_of_le (by omega)
          (pairwise_le_getElem_nat starts hp mid.toNat k hmidlen hk hkge)

theorem findLineNumber_eq_countP (index : Nat) (starts : List Nat)
    (hp : starts.Pairwise (fun a b : Nat => a ≤ b)) :
    findLineNumber index starts = starts.countP (fun s => decide (s ≤ index)) := by
  unfold findLineNumber
  rw [findLineNumberGo_spec index starts hp ((starts.length : Int) - 1 + 1 - 0).toNat 0
    ((starts.length : Int) - 1) (by omega) (by omega) (by omega) (by omega)
    (fun k hk hklt => by omega) (fun k hk hkgt => by omega)]
  omega

theorem lineStartsGo_lower (cs : List Char) : ∀ (i : Nat), ∀ x ∈ lineStartsGo i cs, i < x := by
  induction cs with
  | nil => intro i x hx; simp [lineStartsGo] at hx
  | cons c cs2 ih =>
    intro i x hx
    by_cases hc : c = '\n'
    · rw [show lineStartsGo i (c :: cs2) = (i + 1) :: lineStartsGo (i + 1) cs2 from by
        simp [lineStartsGo, hc]] at hx
      rcases List.mem_cons.mp hx with h1 | h1
      · omega
      · have := ih (i + 1) x h1
        omega
    · rw [show lineStartsGo i (c :: cs2) = lineStartsGo (i + 1) cs2 from by
        simp [lineStartsGo, hc]] at hx
      have := ih (i + 1) x hx
      omega

theorem lineStartsGo_pairwise (cs : List Char) : ∀ (i : Nat),
    List.Pairwise (fun a b : Nat => a ≤ b) (lineStartsGo i cs) := by
  induction cs with
  | nil => intro i; simp [lineStartsGo]
  | cons c cs2 ih =>
    intro i
    by_cases hc : c = '\n'
    · rw [show lineStartsGo i (c :: cs2) = (i + 1) :: lineStartsGo (i + 1) cs2 from by
        simp [lineStartsGo, hc]]
      refine List.Pairwise.cons ?_ (ih (i + 1))
      intro b hb
      have := lineStartsGo_lower cs2 (i + 1) b hb
      omega
    · rw [show lineStartsGo i (c :: cs2) = lineStartsGo (i + 1) cs2 from by
        simp [lineStartsGo, hc]]
      exact ih (i + 1)

theorem buildLineStartIndices_pairwise (content : List Char) :
    List.Pairwise (fun a b : Nat => a ≤ b) (buildLineStartIndices content) := by
  unfold buildLineStartIndices
  refine List.Pairwise.cons ?_ (lineStartsGo_pairwise content 0)
  intro b hb
  have := lineStartsGo_lower content 0 b hb
  omega

theorem lineStartsGo_length (cs : List Char) : ∀ (i : Nat),
    (lineStartsGo i cs).length = cs.countP (fun c => decide (c = '\n')) := by
  induction cs with
  | nil => intro i; rfl
  | cons c cs2 ih =>
    intro i
    rw [List.countP_cons]
    by_cases hc : c = '\n' <;> simp [lineStartsGo, hc, ih]

theorem buildLineStartIndices_length (content : List Char) :
    (buildLineStartIndices content).length = content.countP (fun c => decide (c = '\n')) + 1 := by
  unfold buildLineStartIndices
  simp [lineStartsGo_length]

theorem splitOnNl_length (l : List Char) :
    (splitOnNl l).length = l.countP (fun c => decide (c = '\n')) + 1 := by
  induction l with
  | nil => rfl
  | cons c rest ih =>
    cases hr : splitOnNl rest with
    | nil => exact absurd hr (splitOnNl_ne_nil rest)
    | cons p ps =>
      rw [List.countP_cons]
      by_cases hc : c = '\n'
      · simp only [splitOnNl, hr, if_pos hc]
        rw [hr] at ih
        simp only [List.length_cons] at ih ⊢
        simp [hc]
        omega
      · simp only [splitOnNl, hr, if_neg hc]
        rw [hr] at ih
        simp only [List.length_cons, List.tail_cons] at ih ⊢
        simp [hc]
        omega

theorem findLineNumber_bounds (index : Nat) (content : List Char) :
    1 ≤ findLineNumber index (buildLineStartIndices content) ∧
    findLineNumber index (buildLineStartIndices content) ≤
      (buildLineStartIndices content).length := by
  rw [findLineNumber_eq_countP index _ (buildLineStartIndices_pairwise content)]
  constructor
  · unfold buildLineStartIndices
    rw [List.countP_cons]
    simp
  · exact List.countP_le_length _

theorem findLineNumber_mono (starts : List Nat) (m m' : Nat) (hmm : m ≤ m')
    (hp : starts.Pairwise (fun a b : Nat => a ≤ b)) :
    findLineNumber m starts ≤ findLineNumber m' starts := by
  rw [findLineNumber_eq_countP m starts hp, findLineNumber_eq_countP m' starts hp]
  refine List.countP_mono_left ?_
  intro a _ ha
  simp only [decide_eq_true_eq] at *
  omega

theorem scanSections_inv (starts : List Nat)
    (hp : starts.Pairwise (fun a b : Nat => a ≤ b)) :
    ∀ (pos : Nat) (rest : List Char) (acc : List RawTexOutlineEntry),
    (∀ e ∈ acc, sectionLevel e.command = some e.level ∧
      ∃ m : Nat, e.lineNumber = findLineNumber m starts) →
    (∀ e ∈ acc, e.lineNumber ≤ findLineNumber pos starts) →
    List.Pairwise (fun a b => a.lineNumber ≤ b.lineNumber) acc →
    (∀ e ∈ scanSections starts pos rest acc, sectionLevel e.command = some e.level ∧
      ∃ m : Nat, e.lineNumber = findLineNumber m starts) ∧
    List.Pairwise (fun a b => a.lineNumber ≤ b.lineNumber) (scanSections starts pos rest acc) := by
  intro pos rest acc
  induction pos, rest, acc using scanSections.induct starts with
  | case1 pos acc =>
    intro h1 h2 h3
    rw [show scanSections starts pos [] acc = acc from by rw [scanSections]]
    exact ⟨h1, h3⟩
  | case2 pos rest acc hfind ih =>
    intro h1 h2 h3
    have hstep : scanSections starts pos ('\\' :: rest) acc =
        scanSections starts (pos + 1) rest acc := by
      rw [scanSections]
      simp [hfind]
    rw [hstep]
    refine ih h1 (fun e he => le_trans (h2 e he)
      (findLineNumber_mono starts pos (pos + 1) (by omega) hp)) h3
  | case3 pos rest acc cmd hfind ih =>
    intro h1 h2 h3
    have hstep : scanSections starts pos ('\\' :: rest) acc =
        scanSections starts (pos + (1 + cmd.length + starLength (rest.drop cmd.length)))
          (rest.drop (cmd.length + starLength (rest.drop cmd.length)))
          (scanAppendHeading starts pos cmd
            (rest.drop (cmd.length + starLength (rest.drop cmd.length))) acc) := by
      rw [scanSections]
      simp [hfind]
    rw [hstep]
    set acc2 := scanAppendHeading starts pos cmd
      (rest.drop (cmd.length + starLength (rest.drop cmd.length))) acc with hacc2
    have hsplit : acc2 = acc ∨ ∃ level title,
        sectionLevel cmd = some level ∧
        acc2 = acc ++ [⟨mkEntryId (findLineNumber pos starts) acc.length, title,
          findLineNumber pos starts, cmd, level⟩] := by
      rw [hacc2]
      unfold scanAppendHeading
      cases hsl : sectionLevel cmd with
      | none => exact Or.inl rfl
      | some level =>
        cases hpt : parseHeadingTitle (rest.drop (cmd.length + starLength (rest.drop cmd.length))) with
        | none => exact Or.inl rfl
        | some title => exact Or.inr ⟨level, title, rfl, rfl⟩
    have hmono := findLineNumber_mono starts pos
      (pos + (1 + cmd.length + starLength (rest.drop cmd.length))) (by omega) hp
    rcases hsplit with hsame | ⟨level, title, hsl, happ⟩
    · rw [hsame] at ih ⊢
      exact ih h1 (fun e he => le_trans (h2 e he) hmono) h3
    · rw [happ] at ih ⊢
      refine ih ?_ ?_ ?_
      · intro e he
        rcases List.mem_append.mp he with he1 | he1
        · exact h1 e he1
        · have he2 : e = (⟨mkEntryId (findLineNumber pos starts) acc.length, title,
              findLineNumber pos starts, cmd, level⟩ : RawTexOutlineEntry) := by
            simpa using he1
          subst he2
          exact ⟨hsl, ⟨pos, rfl⟩⟩
      · intro e he
        rcases List.mem_append.mp he with he1 | he1
        · exact le_trans (h2 e he1) hmono
        · have he2 : e = (⟨mkEntryId (findLineNumber pos starts) acc.length, title,
              findLineNumber pos starts, cmd, level⟩ : RawTexOutlineEntry) := by
            simpa using he1
          subst he2
          exact hmono
      · rw [List.pairwise_append]
        refine ⟨h3, by simp, ?_⟩
        intro a ha b hb
        have hb2 : b = (⟨mkEntryId (findLineNumber pos starts) acc.length, title,
            findLineNumber pos starts, cmd, level⟩ : RawTexOutlineEntry) := by
          simpa using hb
        subst hb2
        exact h2 a ha
  | case4 pos c rest acc hc ih =>
    intro h1 h2 h3
    have hstep : scanSections starts pos (c :: rest) acc =
        scanSections starts (pos + 1) rest acc := by
      rw [scanSections]
      simp [hc]
    rw [hstep]
    refine ih h1 (fun e he => le_trans (h2 e he)
      (findLineNumber_mono starts pos (pos + 1) (by omega) hp)) h3

/-! ## Fuel-indexed evaluator for the heading scan (kernel-reducible) -/

def scanAppendHeadingC (lineStarts : List Nat) (pos : Nat) (cmd afterCmd : List Char)
    (acc : List RawTexOutlineEntry) : List RawTexOutlineEntry :=
  match sectionLevel cmd with
  | none => acc
  | some level =>
    match parseHeadingTitle afterCmd with
    | none => acc
    | some title =>
      let ln := lineStarts.countP (fun s => decide (s ≤ pos))
      acc ++ [⟨mkEntryId ln acc.length, title, ln, cmd, level⟩]

def scanSectionsFuel (lineStarts : List Nat) :
    Nat → Nat → List Char → List RawTexOutlineEntry → List RawTexOutlineEntry
  | 0, _, _, acc => acc
  | _ + 1, _, [], acc => acc
  | fuel + 1, pos, c :: rest, acc =>
    if c = '\\' then
      match sectionCommands.find? (fun cmd => cmd.isPrefixOf rest) with
      | none => scanSectionsFuel lineStarts fuel (pos + 1) rest acc
      | some cmd =>
        scanSectionsFuel lineStarts fuel
          (pos + (1 + cmd.length + starLength (rest.drop cmd.length)))
          (rest.drop (cmd.length + starLength (rest.drop cmd.length)))
          (scanAppendHeadingC lineStarts pos cmd
            (rest.drop (cmd.length + starLength (rest.drop cmd.length))) acc)
    else scanSectionsFuel lineStarts fuel (pos + 1) rest acc

theorem scanAppendHeading_eq_c (starts : List Nat)
    (hp : starts.Pairwise (fun a b : Nat => a ≤ b)) (pos : Nat) (cmd afterCmd : List Char)
    (acc : List RawTexOutlineEntry) :
    scanAppendHeading starts pos cmd afterCmd acc =
      scanAppendHeadingC starts pos cmd afterCmd acc := by
  unfold scanAppendHeading scanAppendHeadingC
  rw [findLineNumber_eq_countP pos starts hp]

theorem scanSections_eq_fuel (starts : List Nat)
    (hp : starts.Pairwise (fun a b : Nat => a ≤ b)) :
    ∀ (pos : Nat) (rest : List Char) (acc : List RawTexOutlineEntry) (fuel : Nat),
    rest.length ≤ fuel →
    scanSections starts pos rest acc = scanSectionsFuel starts fuel pos rest acc := by
  intro pos rest acc
  induction pos, rest, acc using scanSections.induct starts with
  | case1 pos acc =>
    intro fuel _
    rw [show scanSections starts pos [] acc = acc from by rw [scanSections]]
    cases fuel <;> rfl
  | case2 pos rest acc hfind ih =>
    intro fuel hfuel
    cases fuel with
    | zero => simp at hfuel
    | succ f =>
      rw [show scanSections starts pos ('\\' :: rest) acc =
          scanSections starts (pos + 1) rest acc from by rw [scanSections]; simp [hfind]]
      rw [show scanSectionsFuel starts (f + 1) pos ('\\' :: rest) acc =
          scanSectionsFuel starts f (pos + 1) rest acc from by
        simp [scanSectionsFuel, hfind]]
      exact ih f (by simpa using hfuel)
  | case3 pos rest acc cmd hfind ih =>
    intro fuel hfuel
    cases fuel with
    | zero => simp at hfuel
    | succ f =>
      rw [show scanSections starts pos ('\\' :: rest) acc =
          scanSections starts (pos + (1 + cmd.length + starLength (rest.drop cmd.length)))
            (rest.drop (cmd.length + starLength (rest.drop cmd.length)))
            (scanAppendHeading starts pos cmd
              (rest.drop (cmd.length + starLength (rest.drop cmd.length))) acc) from by
        rw [scanSections]; simp [hfind]]
      rw [show scanSectionsFuel starts (f + 1) pos ('\\' :: rest) acc =
          scanSectionsFuel starts f (pos + (1 + cmd.length + starLength (rest.drop cmd.length)))
            (rest.drop (cmd.length + starLength (rest.drop cmd.length)))
            (scanAppendHeadingC starts pos cmd
              (rest.drop (cmd.length + starLength (rest.drop cmd.length))) acc) from by
        simp [scanSectionsFuel, hfind]]
      rw [← scanAppendHeading_eq_c starts hp]
      refine ih f ?_
      have hd : (rest.drop (cmd.length + starLength (rest.drop cmd.length))).length ≤ rest.length := by
        simp [List.length_drop]
      simp only [List.length_cons] at hfuel
      omega
  | case4 pos c rest acc hc ih =>
    intro fuel hfuel
    cases fuel with
    | zero => simp at hfuel
    | succ f =>
      rw [show scanSections starts pos (c :: rest) acc =
          scanSections starts (pos + 1) rest acc from by rw [scanSections]; simp [hc]]
      rw [show scanSectionsFuel starts (f + 1) pos (c :: rest) acc =
          scanSectionsFuel starts f (pos + 1) rest acc from by
        simp [scanSectionsFuel, hc]]
      exact ih f (by simpa using hfuel)

/-- C10: `parseTexOutline` reports `lineCount` equal to the number of newline
characters plus one, and every emitted entry's `lineNumber` lies between 1 and
`lineCount`. -/
theorem claim_C10 (content : List Char) :
    (parseTexOutline content).lineCount =
      content.countP (fun c => decide (c = '\n')) + 1 ∧
    ∀ e ∈ (parseTexOutline content).entries,
      1 ≤ e.lineNumber ∧ e.lineNumber ≤ (parseTexOutline content).lineCount := by
  have hp := buildLineStartIndices_pairwise content
  have hinv := scanSections_inv (buildLineStartIndices content) hp 0
    (stripCommentsPreservingLength content) [] (by simp) (by simp) (by simp)
  have hlc : (parseTexOutline content).lineCount = (splitOnNl content).length := by
    cases hraw : scanSections (buildLineStartIndices content) 0
        (stripCommentsPreservingLength content) [] with
    | nil => simp [parseTexOutline, hraw]
    | cons r0 rrest => simp [parseTexOutline, hraw]
  constructor
  · rw [hlc, splitOnNl_length]
  · intro e he
    have hent : ∃ raw ∈ scanSections (buildLineStartIndices content) 0
        (stripCommentsPreservingLength content) [], e.lineNumber = raw.lineNumber := by
      cases hraw : scanSections (buildLineStartIndices content) 0
          (stripCommentsPreservingLength content) [] with
      | nil =>
        simp only [parseTexOutline, hraw] at he
        simp at he
      | cons r0 rrest =>
        simp only [parseTexOutline, hraw] at he
        simp only [List.mem_map] at he
        obtain ⟨raw, hrawmem, hre⟩ := he
        exact ⟨raw, by first | exact hrawmem | (rw [hraw]; exact hrawmem), by rw [← hre]⟩
    obtain ⟨raw, hrawmem, hlnum⟩ := hent
    obtain ⟨-, m, hm⟩ := hinv.1 raw hrawmem
    have hb := findLineNumber_bounds m content
    rw [hlnum, hm, hlc, splitOnNl_length]
    rw [buildLineStartIndices_length] at hb
    exact ⟨hb.1, hb.2⟩

theorem claim_C10_witness :
    (parseTexOutline (("x\n\\section\x7bA\x7d").data)).lineCount = 2 := by
  rw [(claim_C10 (("x\n\\section\x7bA\x7d").data)).1]
  decide

theorem filterMap_eq_map_of_some {α β : Type} (g : α → Option β) (h : α → β) :
    ∀ l : List α, (∀ x ∈ l, g x = some (h x)) → l.filterMap g = l.map h := by
  intro l
  induction l with
  | nil => intro _; rfl
  | cons a l2 ih =>
    intro ha
    rw [List.filterMap_cons, ha a (by simp), List.map_cons,
      ih (fun x hx => ha x (by simp [hx]))]

/-- C4: the outline entries appear in document order (line numbers
non-decreasing), each entry's depth is its command rank minus the minimum
command rank among all emitted headings, and the spec's example document
yields exactly the three expected headings with depths 0, 1, 0 and line
numbers 1, 2, 3. -/
theorem claim_C4 (content : List Char) :
    List.Pairwise (fun a b => a.lineNumber ≤ b.lineNumber) (parseTexOutline content).entries ∧
    (∀ e ∈ (parseTexOutline content).entries,
      ∃ r m : Nat, sectionLevel e.command = some r ∧
        ((parseTexOutline content).entries.filterMap
            (fun x => sectionLevel x.command)).min? = some m ∧
        e.depth = r - m) ∧
    (parseTexOutline (("\\section\x7bIntro\x7d\n\\subsection\x7bBackground\x7d\n\\section\x7bMethods\x7d").data)).entries.map
        (fun e => (e.title, e.command, e.lineNumber, e.depth)) =
      [(("Intro").data, ("section").data, 1, 0),
       (("Background").data, ("subsection").data, 2, 1),
       (("Methods").data, ("section").data, 3, 0)] := by
  have hp := buildLineStartIndices_pairwise content
  have hinv := scanSections_inv (buildLineStartIndices content) hp 0
    (stripCommentsPreservingLength content) [] (by simp) (by simp) (by simp)
  have hconcrete :
      (parseTexOutline (("\\section\x7bIntro\x7d\n\\subsection\x7bBackground\x7d\n\\section\x7bMethods\x7d").data)).entries.map
        (fun e => (e.title, e.command, e.lineNumber, e.depth)) =
      [(("Intro").data, ("section").data, 1, 0),
       (("Background").data, ("subsection").data, 2, 1),
       (("Methods").data, ("section").data, 3, 0)] := by
    have hsan : stripCommentsPreservingLength
        (("\\section\x7bIntro\x7d\n\\subsection\x7bBackground\x7d\n\\section\x7bMethods\x7d").data) =
        ['\\', 's', 'e', 'c', 't', 'i', 'o', 'n', '{', 'I', 'n', 't', 'r', 'o', '}', '\n', '\\', 's', 'u', 'b', 's', 'e', 'c', 't', 'i', 'o', 'n', '{', 'B', 'a', 'c', 'k', 'g', 'r', 'o', 'u', 'n', 'd', '}', '\n', '\\', 's', 'e', 'c', 't', 'i', 'o', 'n', '{', 'M', 'e', 't', 'h', 'o', 'd', 's', '}'] := by
      rw [stripComments_eq_maskStep]
      decide
    have heval : scanSections
        (buildLineStartIndices (("\\section\x7bIntro\x7d\n\\subsection\x7bBackground\x7d\n\\section\x7bMethods\x7d").data)) 0
        (['\\', 's', 'e', 'c', 't', 'i', 'o', 'n', '{', 'I', 'n', 't', 'r', 'o', '}', '\n', '\\', 's', 'u', 'b', 's', 'e', 'c', 't', 'i', 'o', 'n', '{', 'B', 'a', 'c', 'k', 'g', 'r', 'o', 'u', 'n', 'd', '}', '\n', '\\', 's', 'e', 'c', 't', 'i', 'o', 'n', '{', 'M', 'e', 't', 'h', 'o', 'd', 's', '}']) [] =
        scanSectionsFuel
          (buildLineStartIndices (("\\section\x7bIntro\x7d\n\\subsection\x7bBackground\x7d\n\\section\x7bMethods\x7d").data)) 60 0
          (['\\', 's', 'e', 'c', 't', 'i', 'o', 'n', '{', 'I', 'n', 't', 'r', 'o', '}', '\n', '\\', 's', 'u', 'b', 's', 'e', 'c', 't', 'i', 'o', 'n', '{', 'B', 'a', 'c', 'k', 'g', 'r', 'o', 'u', 'n', 'd', '}', '\n', '\\', 's', 'e', 'c', 't', 'i', 'o', 'n', '{', 'M', 'e', 't', 'h', 'o', 'd', 's', '}']) [] :=
      scanSections_eq_fuel _ (by decide) 0 _ [] 60 (by decide)
    simp only [parseTexOutline, hsan, heval]
    decide
  cases hraw : scanSections (buildLineStartIndices content) 0
      (stripCommentsPreservingLength content) [] with
  | nil =>
    have hent : (parseTexOutline content).entries = [] := by
      simp [parseTexOutline, hraw]
    rw [hent]
    exact ⟨by simp, by simp, hconcrete⟩
  | cons r0 rrest =>
    rw [hraw] at hinv
    have hent : (parseTexOutline content).entries = (r0 :: rrest).map (fun e =>
        (⟨e.id, e.title, e.lineNumber, e.command,
          e.level - ((List.map (fun e => e.level) (r0 :: rrest)).min?.getD 0)⟩ : TexOutlineEntry)) := by
      simp [parseTexOutline, hraw]
    refine ⟨?_, ?_, hconcrete⟩
    · rw [hent, List.pairwise_map]
      exact hinv.2
    · intro e he
      rw [hent] at he
      simp only [List.mem_map] at he
      obtain ⟨raw, hrawmem, hre⟩ := he
      have hfm : (parseTexOutline content).entries.filterMap
          (fun x => sectionLevel x.command) = (r0 :: rrest).map (fun e => e.level) := by
        rw [hent, List.filterMap_map]
        refine filterMap_eq_map_of_some _ _ (r0 :: rrest) ?_
        intro x hx
        exact (hinv.1 x hx).1
      obtain ⟨M, hM⟩ : ∃ M, (List.map (fun e => e.level) (r0 :: rrest)).min? = some M := by
        cases hmin : (List.map (fun e => e.level) (r0 :: rrest)).min? with
        | none =>
          rw [List.min?_eq_none_iff] at hmin
          simp at hmin
        | some M => exact ⟨M, rfl⟩
      refine ⟨raw.level, M, ?_, ?_, ?_⟩
      · rw [← hre]
        exact (hinv.1 raw hrawmem).1
      · rw [hfm, hM]
      · rw [← hre]
        show raw.level - (List.map (fun e => e.level) (r0 :: rrest)).min?.getD 0 = raw.level - M
        rw [hM]
        rfl

/-- C4 witness: the concrete nesting example extracted from the theorem. -/
theorem claim_C4_witness :
    (parseTexOutline (("\\section\x7bIntro\x7d\n\\subsection\x7bBackground\x7d\n\\section\x7bMethods\x7d").data)).entries.map
        (fun e => (e.title, e.command, e.lineNumber, e.depth)) =
      [(("Intro").data, ("section").data, 1, 0),
       (("Background").data, ("subsection").data, 2, 1),
       (("Methods").data, ("section").data, 3, 0)] :=
  (claim_C4 []).2.2

/-! ## Link spans (C6) -/

theorem dedupeScan_facts : ∀ (l : List LatexLinkSpan) (lastEnd : Int),
    (∀ s ∈ l, s.fromOff ≤ s.toOff) →
    List.Pairwise (fun a b => a.toOff ≤ b.fromOff) (dedupeScan lastEnd l) ∧
    (∀ s ∈ dedupeScan lastEnd l, lastEnd ≤ (s.fromOff : Int)) := by
  intro l
  induction l with
  | nil => intro lastEnd _; exact ⟨by simp [dedupeScan], by simp [dedupeScan]⟩
  | cons s rest ih =>
    intro lastEnd hle
    have hrest := fun lastEnd2 => ih lastEnd2 (fun x hx => hle x (by simp [hx]))
    by_cases hlt : (s.fromOff : Int) < lastEnd
    · rw [show dedupeScan lastEnd (s :: rest) = dedupeScan lastEnd rest from by
        simp [dedupeScan, hlt]]
      exact hrest lastEnd
    · rw [show dedupeScan lastEnd (s :: rest) = s :: dedupeScan (s.toOff : Int) rest from by
        simp [dedupeScan, hlt]]
      obtain ⟨hpw, hlb⟩ := hrest (s.toOff : Int)
      refine ⟨List.Pairwise.cons ?_ hpw, ?_⟩
      · intro b hb
        have := hlb b hb
        exact_mod_cast this
      · intro b hb
        rcases List.mem_cons.mp hb with h1 | h1
        · subst h1; omega
        · have h2 := hlb b h1
          have h3 := hle s (by simp)
          have h4 : (s.fromOff : Int) ≤ (s.toOff : Int) := by exact_mod_cast h3
          omega

theorem collectKindSpans_le (tryMatch : List Char → Option (List Char × Nat))
    (kind : LatexLinkKind) :
    ∀ (pos : Nat) (s : List Char), ∀ sp ∈ collectKindSpans tryMatch kind pos s,
      sp.fromOff ≤ sp.toOff := by
  intro pos s
  induction pos, s using collectKindSpans.induct tryMatch kind with
  | case1 pos =>
    intro sp hsp
    rw [show collectKindSpans tryMatch kind pos [] = [] from by rw [collectKindSpans]] at hsp
    simp at hsp
  | case2 pos c rest hm ih =>
    intro sp hsp
    rw [show collectKindSpans tryMatch kind pos (c :: rest) =
        collectKindSpans tryMatch kind (pos + 1) rest from by
      rw [collectKindSpans]; simp [hm]] at hsp
    exact ih sp hsp
  | case3 pos c rest pn hm payload hpay ih =>
    intro sp hsp
    have hpay2 : trimWs pn.1 = [] := hpay
    rw [show collectKindSpans tryMatch kind pos (c :: rest) =
        collectKindSpans tryMatch kind (pos + pn.2) (rest.drop (pn.2 - 1)) from by
      rw [collectKindSpans]; simp [hm, hpay2]] at hsp
    exact ih sp hsp
  | case4 pos c rest pn hm payload hpay ih =>
    intro sp hsp
    have hpay2 : ¬ trimWs pn.1 = [] := hpay
    rw [show collectKindSpans tryMatch kind pos (c :: rest) =
        ⟨pos, pos + pn.2, kind, trimWs pn.1⟩ ::
          collectKindSpans tryMatch kind (pos + pn.2) (rest.drop (pn.2 - 1)) from by
      rw [collectKindSpans]; simp [hm, hpay2]] at hsp
    rcases List.mem_cons.mp hsp with h1 | h1
    · subst h1; simp
    · exact ih sp h1

def collectKindSpansFuel (tryMatch : List Char → Option (List Char × Nat))
    (kind : LatexLinkKind) : Nat → Nat → List Char → List LatexLinkSpan
  | 0, _, _ => []
  | _ + 1, _, [] => []
  | fuel + 1, pos, c :: rest =>
    match tryMatch (c :: rest) with
    | none => collectKindSpansFuel tryMatch kind fuel (pos + 1) rest
    | some pn =>
      let payload := trimWs pn.1
      let tailSpans := collectKindSpansFuel tryMatch kind fuel (pos + pn.2) (rest.drop (pn.2 - 1))
      if payload = [] then tailSpans
      else ⟨pos, pos + pn.2, kind, payload⟩ :: tailSpans

theorem collectKindSpans_eq_fuel (tryMatch : List Char → Option (List Char × Nat))
    (kind : LatexLinkKind) :
    ∀ (pos : Nat) (s : List Char) (fuel : Nat), s.length ≤ fuel →
    collectKindSpans tryMatch kind pos s = collectKindSpansFuel tryMatch kind fuel pos s := by
  intro pos s
  induction pos, s using collectKindSpans.induct tryMatch kind with
  | case1 pos =>
    intro fuel _
    rw [show collectKindSpans tryMatch kind pos [] = [] from by rw [collectKindSpans]]
    cases fuel <;> rfl
  | case2 pos c rest hm ih =>
    intro fuel hfuel
    cases fuel with
    | zero => simp at hfuel
    | succ f =>
      rw [show collectKindSpans tryMatch kind pos (c :: rest) =
          collectKindSpans tryMatch kind (pos + 1) rest from by
        rw [collectKindSpans]; simp [hm]]
      rw [show collectKindSpansFuel tryMatch kind (f + 1) pos (c :: rest) =
          collectKindSpansFuel tryMatch kind f (pos + 1) rest from by
        simp [collectKindSpansFuel, hm]]
      exact ih f (by simpa using hfuel)
  | case3 pos c rest pn hm payload hpay ih =>
    intro fuel hfuel
    have hpay2 : trimWs pn.1 = [] := hpay
    cases fuel with
    | zero => simp at hfuel
    | succ f =>
      have hdrop : (rest.drop (pn.2 - 1)).length ≤ f := by
        have := List.length_drop (pn.2 - 1) rest
        simp only [List.length_cons] at hfuel
        omega
      rw [show collectKindSpans tryMatch kind pos (c :: rest) =
          collectKindSpans tryMatch kind (pos + pn.2) (rest.drop (pn.2 - 1)) from by
        rw [collectKindSpans]; simp [hm, hpay2]]
      rw [show collectKindSpansFuel tryMatch kind (f + 1) pos (c :: rest) =
          collectKindSpansFuel tryMatch kind f (pos + pn.2) (rest.drop (pn.2 - 1)) from by
        simp [collectKindSpansFuel, hm, hpay2]]
      exact ih f hdrop
  | case4 pos c rest pn hm payload hpay ih =>
    intro fuel hfuel
    have hpay2 : ¬ trimWs pn.1 = [] := hpay
    cases fuel with
    | zero => simp at hfuel
    | succ f =>
      have hdrop : (rest.drop (pn.2 - 1)).length ≤ f := by
        have := List.length_drop (pn.2 - 1) rest
        simp only [List.length_cons] at hfuel
        omega
      rw [show collectKindSpans tryMatch kind pos (c :: rest) =
          ⟨pos, pos + pn.2, kind, trimWs pn.1⟩ ::
            collectKindSpans tryMatch kind (pos + pn.2) (rest.drop (pn.2 - 1)) from by
        rw [collectKindSpans]; simp [hm, hpay2]]
      rw [show collectKindSpansFuel tryMatch kind (f + 1) pos (c :: rest) =
          ⟨pos, pos + pn.2, kind, trimWs pn.1⟩ ::
            collectKindSpansFuel tryMatch kind f (pos + pn.2) (rest.drop (pn.2 - 1)) from by
        simp [collectKindSpansFuel, hm, hpay2]]
      rw [ih f hdrop]

theorem dedupeOverlappingSpans_pairwise (spans : List LatexLinkSpan)
    (h : ∀ s ∈ spans, s.fromOff ≤ s.toOff) :
    (dedupeOverlappingSpans spans).Pairwise (fun a b => a.toOff ≤ b.fromOff) := by
  unfold dedupeOverlappingSpans
  by_cases hlen : spans.length ≤ 1
  · rw [if_pos hlen]
    rcases spans with _ | ⟨a, _ | ⟨b, t⟩⟩
    · exact List.Pairwise.nil
    · simp
    · simp at hlen
  · rw [if_neg hlen]
    have hmem : ∀ s ∈ spans.mergeSort spanSortLe, s.fromOff ≤ s.toOff := fun s hs =>
      h s ((List.mergeSort_perm spans spanSortLe).mem_iff.mp hs)
    exact (dedupeScan_facts _ (-1) hmem).1

/-- C6: for every text in TeX mode the spans returned by
`collectLatexLinkSpans` are pairwise non-overlapping (each span ends no later
than the next begins), and for the adjacent text `\ref\x7ba\x7d\ref\x7bb\x7d`
exactly two spans are produced, `[0,7)` with payload `a` and `[7,14)` with
payload `b`. -/
theorem claim_C6 (text : List Char) :
    (collectLatexLinkSpans text .tex).Pairwise (fun a b => a.toOff ≤ b.fromOff) ∧
    collectLatexLinkSpans (("\\ref\x7ba\x7d\\ref\x7bb\x7d").data) .tex =
      [⟨0, 7, .ref, ("a").data⟩, ⟨7, 14, .ref, ("b").data⟩] := by
  constructor
  · by_cases htext : text = []
    · subst htext; simp [collectLatexLinkSpans]
    · have hstep : collectLatexLinkSpans text .tex =
          dedupeOverlappingSpans
            (collectKindSpans tryMatchInput .input 0 (maskLatexCommentsPreservingLength text) ++
             collectKindSpans tryMatchGraphics .graphics 0 (maskLatexCommentsPreservingLength text) ++
             collectKindSpans tryMatchRef .ref 0 (maskLatexCommentsPreservingLength text)) := by
        unfold collectLatexLinkSpans
        rw [if_neg (by simp [htext])]
      rw [hstep]
      apply dedupeOverlappingSpans_pairwise
      intro s hs
      rcases List.mem_append.mp hs with h12 | h3
      · rcases List.mem_append.mp h12 with h1 | h2
        · exact collectKindSpans_le tryMatchInput .input 0 _ s h1
        · exact collectKindSpans_le tryMatchGraphics .graphics 0 _ s h2
      · exact collectKindSpans_le tryMatchRef .ref 0 _ s h3
  · have hmask : maskLatexCommentsPreservingLength (("\\ref\x7ba\x7d\\ref\x7bb\x7d").data) =
        ("\\ref\x7ba\x7d\\ref\x7bb\x7d").data := by
      unfold maskLatexCommentsPreservingLength
      rw [stripComments_eq_maskStep]
      decide
    have hA : collectKindSpans tryMatchInput .input 0 (("\\ref\x7ba\x7d\\ref\x7bb\x7d").data)
        = [] := by
      rw [collectKindSpans_eq_fuel tryMatchInput .input 0 _ 14 (by decide)]
      decide
    have hB : collectKindSpans tryMatchGraphics .graphics 0
        (("\\ref\x7ba\x7d\\ref\x7bb\x7d").data) = [] := by
      rw [collectKindSpans_eq_fuel tryMatchGraphics .graphics 0 _ 14 (by decide)]
      decide
    have hC : collectKindSpans tryMatchRef .ref 0 (("\\ref\x7ba\x7d\\ref\x7bb\x7d").data) =
        [⟨0, 7, .ref, ("a").data⟩, ⟨7, 14, .ref, ("b").data⟩] := by
      rw [collectKindSpans_eq_fuel tryMatchRef .ref 0 _ 14 (by decide)]
      decide
    have hstep2 : collectLatexLinkSpans (("\\ref\x7ba\x7d\\ref\x7bb\x7d").data) .tex =
        dedupeOverlappingSpans
          (collectKindSpans tryMatchInput .input 0
              (maskLatexCommentsPreservingLength (("\\ref\x7ba\x7d\\ref\x7bb\x7d").data)) ++
           collectKindSpans tryMatchGraphics .graphics 0
              (maskLatexCommentsPreservingLength (("\\ref\x7ba\x7d\\ref\x7bb\x7d").data)) ++
           collectKindSpans tryMatchRef .ref 0
              (maskLatexCommentsPreservingLength (("\\ref\x7ba\x7d\\ref\x7bb\x7d").data))) := by
      unfold collectLatexLinkSpans
      rw [if_neg (by decide)]
    rw [hstep2, hmask, hA, hB, hC]
    show dedupeOverlappingSpans
        [⟨0, 7, .ref, ("a").data⟩, ⟨7, 14, .ref, ("b").data⟩] = _
    unfold dedupeOverlappingSpans
    rw [if_neg (by decide), List.mergeSort_of_sorted (by decide)]
    decide

/-! ## Diff entries (C1) -/

theorem pathLe_trans : ∀ (a b c : List Char),
    pathLe a b = true → pathLe b c = true → pathLe a c = true
  | [], _, _, _, _ => by simp [pathLe]
  | x :: xs, [], c, hab, _ => by simp [pathLe] at hab
  | x :: xs, y :: ys, [], _, hbc => by simp [pathLe] at hbc
  | x :: xs, y :: ys, z :: zs, hab, hbc => by
    simp only [pathLe] at hab hbc ⊢
    by_cases hxy : x = y
    · subst hxy
      rw [if_pos rfl] at hab
      by_cases hxz : x = z
      · subst hxz
        rw [if_pos rfl] at hbc ⊢
        exact pathLe_trans xs ys zs hab hbc
      · rw [if_neg hxz] at hbc ⊢
        exact hbc
    · rw [if_neg hxy] at hab
      have hx : x < y := of_decide_eq_true hab
      by_cases hyz : y = z
      · subst hyz
        rw [if_neg hxy]
        exact hab
      · rw [if_neg hyz] at hbc
        have hy : y < z := of_decide_eq_true hbc
        have hxz2 : x < z := lt_trans hx hy
        have hxz : x ≠ z := fun h => absurd (h ▸ hxz2) (lt_irrefl z)
        rw [if_neg hxz]
        exact decide_eq_true hxz2

theorem pathLe_total : ∀ (a b : List Char), pathLe a b = true ∨ pathLe b a = true
  | [], _ => Or.inl (by simp [pathLe])
  | _ :: _, [] => Or.inr (by simp [pathLe])
  | x :: xs, y :: ys => by
    by_cases hxy : x = y
    · subst hxy
      rcases pathLe_total xs ys with h | h
      · exact Or.inl (by simp [pathLe, h])
      · exact Or.inr (by simp [pathLe, h])
    · rcases lt_or_gt_of_ne hxy with h | h
      · exact Or.inl (by simp only [pathLe]; rw [if_neg hxy]; exact decide_eq_true h)
      · exact Or.inr (by simp only [pathLe]; rw [if_neg (Ne.symm hxy)]; exact decide_eq_true h)

theorem mergeSort_pathLe_sorted (l : List (List Char)) :
    (l.mergeSort pathLe).Pairwise (fun a b => pathLe a b = true) := by
  have h := @List.sorted_mergeSort (List Char) pathLe pathLe_trans
    (fun a b => by rcases pathLe_total a b with h | h <;> simp [h]) l
  exact h

theorem dedupKeysGo_mem : ∀ (l : List (List Char)) (seen : List (List Char)) (x : List Char),
    x ∈ dedupKeysGo seen l ↔ x ∈ l ∧ x ∉ seen := by
  intro l
  induction l with
  | nil => intro seen x; simp [dedupKeysGo]
  | cons p rest ih =>
    intro seen x
    by_cases hp : p ∈ seen
    · rw [show dedupKeysGo seen (p :: rest) = dedupKeysGo seen rest from by
        simp [dedupKeysGo, hp]]
      rw [ih seen x]
      constructor
      · rintro ⟨h1, h2⟩; exact ⟨List.mem_cons_of_mem _ h1, h2⟩
      · rintro ⟨h1, h2⟩
        rcases List.mem_cons.mp h1 with rfl | h1
        · exact absurd hp h2
        · exact ⟨h1, h2⟩
    · rw [show dedupKeysGo seen (p :: rest) = p :: dedupKeysGo (p :: seen) rest from by
        simp [dedupKeysGo, hp]]
      constructor
      · intro hx
        rcases List.mem_cons.mp hx with rfl | hx
        · exact ⟨List.mem_cons_self _ _, hp⟩
        · have h2 := (ih (p :: seen) x).mp hx
          exact ⟨List.mem_cons_of_mem _ h2.1,
            fun hseen => h2.2 (List.mem_cons_of_mem _ hseen)⟩
      · rintro ⟨h1, h2⟩
        rcases List.mem_cons.mp h1 with rfl | h1
        · exact List.mem_cons_self _ _
        · by_cases hxp : x = p
          · subst hxp; exact List.mem_cons_self _ _
          · refine List.mem_cons_of_mem _ ((ih (p :: seen) x).mpr ⟨h1, ?_⟩)
            intro hx
            rcases List.mem_cons.mp hx with h | h
            · exact hxp h
            · exact h2 h

theorem dedupKeysGo_nodup : ∀ (l : List (List Char)) (seen : List (List Char)),
    (dedupKeysGo seen l).Nodup := by
  intro l
  induction l with
  | nil => intro seen; simp [dedupKeysGo]
  | cons p rest ih =>
    intro seen
    by_cases hp : p ∈ seen
    · rw [show dedupKeysGo seen (p :: rest) = dedupKeysGo seen rest from by
        simp [dedupKeysGo, hp]]
      exact ih seen
    · rw [show dedupKeysGo seen (p :: rest) = p :: dedupKeysGo (p :: seen) rest from by
        simp [dedupKeysGo, hp]]
      rw [List.nodup_cons]
      refine ⟨?_, ih (p :: seen)⟩
      intro hmem
      exact ((dedupKeysGo_mem rest (p :: seen) p).mp hmem).2 (List.mem_cons_self _ _)

theorem dedupKeys_mem (l : List (List Char)) (x : List Char) :
    x ∈ dedupKeys l ↔ x ∈ l := by
  unfold dedupKeys
  rw [dedupKeysGo_mem]
  simp

theorem dedupKeys_nodup (l : List (List Char)) : (dedupKeys l).Nodup :=
  dedupKeysGo_nodup l []

theorem mapGet_eq_none_iff (files : List FileEntry) (p : List Char) :
    mapGet files p = none ↔ p ∉ files.map FileEntry.path := by
  unfold mapGet
  rw [List.find?_eq_none]
  constructor
  · intro h hmem
    rcases List.mem_map.mp hmem with ⟨f, hf, hfp⟩
    exact absurd (by simpa using hfp) (by simpa using h f (List.mem_reverse.mpr hf))
  · intro h f hf hp
    exact h (List.mem_map.mpr ⟨f, List.mem_reverse.mp hf, by simpa using hp⟩)

theorem mapGet_mem (files : List FileEntry) (p : List Char) (f : FileEntry)
    (h : mapGet files p = some f) : f ∈ files ∧ f.path = p := by
  unfold mapGet at h
  have h1 := List.mem_of_find?_eq_some h
  have h2 := List.find?_some h
  exact ⟨List.mem_reverse.mp h1, by simpa using h2⟩

theorem mapGet_of_nodup (files : List FileEntry)
    (hnd : (files.map FileEntry.path).Nodup) (f : FileEntry) (hf : f ∈ files) :
    mapGet files f.path = some f := by
  cases hm : mapGet files f.path with
  | none =>
    rw [mapGet_eq_none_iff] at hm
    exact absurd (List.mem_map.mpr ⟨f, hf, rfl⟩) hm
  | some g =>
    obtain ⟨hg, hgp⟩ := mapGet_mem files f.path g hm
    have hgf : g = f := List.inj_on_of_nodup_map hnd hg hf hgp
    rw [hgf]

theorem classifyPath_path (oldFiles newFiles : List FileEntry) (p : List Char)
    (e : DiffModeEntry) (h : classifyPath oldFiles newFiles p = some e) : e.path = p := by
  unfold classifyPath at h
  cases ho : mapGet oldFiles p <;> cases hn : mapGet newFiles p <;> rw [ho, hn] at h
  · simp at h
  · exact congrArg DiffModeEntry.path (Option.some.inj h).symm
  · exact congrArg DiffModeEntry.path (Option.some.inj h).symm
  · exact congrArg DiffModeEntry.path (Option.some.inj h).symm

theorem classifyPath_isSome (oldFiles newFiles : List FileEntry) (p : List Char)
    (h : p ∈ oldFiles.map FileEntry.path ∨ p ∈ newFiles.map FileEntry.path) :
    ∃ e, classifyPath oldFiles newFiles p = some e := by
  unfold classifyPath
  cases ho : mapGet oldFiles p <;> cases hn : mapGet newFiles p
  · rcases h with h | h
    · rw [mapGet_eq_none_iff] at ho; exact absurd h ho
    · rw [mapGet_eq_none_iff] at hn; exact absurd h hn
  · exact ⟨_, rfl⟩
  · exact ⟨_, rfl⟩
  · exact ⟨_, rfl⟩

theorem filterMap_classify_sublist (oldFiles newFiles : List FileEntry) :
    ∀ l : List (List Char),
      List.Sublist ((l.filterMap (classifyPath oldFiles newFiles)).map DiffModeEntry.path) l := by
  intro l
  induction l with
  | nil => simp
  | cons p rest ih =>
    cases h : classifyPath oldFiles newFiles p with
    | none =>
      rw [List.filterMap_cons_none h]
      exact ih.cons p
    | some e =>
      rw [List.filterMap_cons_some h, List.map_cons,
        classifyPath_path oldFiles newFiles p e h]
      exact ih.cons₂ p

theorem zip_all_eq : ∀ (x y : List Nat), x.length = y.length →
    (((x.zip y).all fun q => q.1 == q.2) = true ↔ x = y) := by
  intro x
  induction x with
  | nil =>
    intro y h
    cases y
    · simp
    · simp at h
  | cons a as ih =>
    intro y h
    cases y with
    | nil => simp at h
    | cons b bs =>
      simp only [List.zip_cons_cons, List.all_cons, Bool.and_eq_true, beq_iff_eq]
      rw [ih bs (by simpa using h)]
      constructor
      · rintro ⟨h1, h2⟩; rw [h1, h2]
      · intro h1
        injection h1 with h1 h2
        exact ⟨h1, h2⟩

theorem fileContentsEqual_iff (a b : FileEntry) :
    fileContentsEqual a b = true ↔ a.bytes = b.bytes := by
  unfold fileContentsEqual
  by_cases hlen : a.bytes.length ≠ b.bytes.length
  · rw [if_pos hlen]
    constructor
    · intro h; exact absurd h (by simp)
    · intro h; exact absurd (congrArg List.length h) hlen
  · rw [if_neg hlen]
    push_neg at hlen
    exact zip_all_eq a.bytes b.bytes hlen

theorem buildDiff_sortedPaths_mem (oldFiles newFiles : List FileEntry) (p : List Char) :
    p ∈ (dedupKeys (dedupKeys (oldFiles.map FileEntry.path) ++
          dedupKeys (newFiles.map FileEntry.path))).mergeSort pathLe ↔
    p ∈ oldFiles.map FileEntry.path ∨ p ∈ newFiles.map FileEntry.path := by
  rw [List.mem_mergeSort, dedupKeys_mem, List.mem_append, dedupKeys_mem, dedupKeys_mem]

/-- C1: `buildDiffEntries` returns one entry per path of the union of the two
path sets (membership iff, no duplicates), in sorted path order; a path only
in `newFiles` yields status `added` with no old file and the new file
attached, a path only in `oldFiles` yields `removed` symmetrically, and a
path present in both carries both files, `unchanged` exactly when the byte
contents agree and `modified` otherwise; `fileContentsEqual` holds iff the
byte lists are equal. -/
theorem claim_C1 (oldFiles newFiles : List FileEntry)
    (hold : (oldFiles.map FileEntry.path).Nodup)
    (hnew : (newFiles.map FileEntry.path).Nodup) :
    (((buildDiffEntries oldFiles newFiles).map DiffModeEntry.path).Pairwise
        (fun a b => pathLe a b = true)) ∧
    ((buildDiffEntries oldFiles newFiles).map DiffModeEntry.path).Nodup ∧
    (∀ p : List Char,
      p ∈ (buildDiffEntries oldFiles newFiles).map DiffModeEntry.path ↔
        (p ∈ oldFiles.map FileEntry.path ∨ p ∈ newFiles.map FileEntry.path)) ∧
    (∀ e ∈ buildDiffEntries oldFiles newFiles,
      (e.path ∉ oldFiles.map FileEntry.path →
        e.status = .added ∧ e.oldFile = none ∧
          ∃ f ∈ newFiles, f.path = e.path ∧ e.newFile = some f) ∧
      (e.path ∉ newFiles.map FileEntry.path →
        e.status = .removed ∧ e.newFile = none ∧
          ∃ f ∈ oldFiles, f.path = e.path ∧ e.oldFile = some f) ∧
      (∀ fo ∈ oldFiles, fo.path = e.path → ∀ fn ∈ newFiles, fn.path = e.path →
        e.oldFile = some fo ∧ e.newFile = some fn ∧
          e.status = (if fo.bytes = fn.bytes then .unchanged else .modified))) ∧
    (∀ a b : FileEntry, fileContentsEqual a b = true ↔ a.bytes = b.bytes) := by
  have hunfold : buildDiffEntries oldFiles newFiles =
      ((dedupKeys (dedupKeys (oldFiles.map FileEntry.path) ++
        dedupKeys (newFiles.map FileEntry.path))).mergeSort pathLe).filterMap
        (classifyPath oldFiles newFiles) := rfl
  have hsorted := mergeSort_pathLe_sorted
    (dedupKeys (dedupKeys (oldFiles.map FileEntry.path) ++
      dedupKeys (newFiles.map FileEntry.path)))
  have hsub := filterMap_classify_sublist oldFiles newFiles
    ((dedupKeys (dedupKeys (oldFiles.map FileEntry.path) ++
      dedupKeys (newFiles.map FileEntry.path))).mergeSort pathLe)
  have hndsp : ((dedupKeys (dedupKeys (oldFiles.map FileEntry.path) ++
      dedupKeys (newFiles.map FileEntry.path))).mergeSort pathLe).Nodup :=
    ((List.mergeSort_perm _ pathLe).nodup_iff).mpr (dedupKeys_nodup _)
  refine ⟨?_, ?_, ?_, ?_, fileContentsEqual_iff⟩
  · rw [hunfold]
    exact hsorted.sublist hsub
  · rw [hunfold]
    exact hndsp.sublist hsub
  · intro p
    constructor
    · intro hp
      rw [hunfold] at hp
      rcases List.mem_map.mp hp with ⟨e, he, hep⟩
      rcases List.mem_filterMap.mp he with ⟨q, hq, hclass⟩
      have hq2 : p ∈ (dedupKeys (dedupKeys (oldFiles.map FileEntry.path) ++
          dedupKeys (newFiles.map FileEntry.path))).mergeSort pathLe := by
        rw [← hep, classifyPath_path oldFiles newFiles q e hclass]
        exact hq
      exact (buildDiff_sortedPaths_mem oldFiles newFiles p).mp hq2
    · intro hp
      have hq : p ∈ (dedupKeys (dedupKeys (oldFiles.map FileEntry.path) ++
          dedupKeys (newFiles.map FileEntry.path))).mergeSort pathLe :=
        (buildDiff_sortedPaths_mem oldFiles newFiles p).mpr hp
      obtain ⟨e, hclass⟩ := classifyPath_isSome oldFiles newFiles p hp
      rw [hunfold]
      exact List.mem_map.mpr ⟨e, List.mem_filterMap.mpr ⟨p, hq, hclass⟩,
        classifyPath_path oldFiles newFiles p e hclass⟩
  · intro e he
    rw [hunfold] at he
    rcases List.mem_filterMap.mp he with ⟨p, hpmem, hclass⟩
    have hpe : e.path = p := classifyPath_path oldFiles newFiles p e hclass
    subst hpe
    refine ⟨?_, ?_, ?_⟩
    · intro hnotold
      have ho : mapGet oldFiles e.path = none := (mapGet_eq_none_iff _ _).mpr hnotold
      unfold classifyPath at hclass
      rw [ho] at hclass
      cases hn : mapGet newFiles e.path with
      | none => rw [hn] at hclass; simp at hclass
      | some fn =>
        rw [hn] at hclass
        have hclass2 : (⟨e.path, .added, none, some fn⟩ : DiffModeEntry) = e :=
          Option.some.inj hclass
        obtain ⟨hfn_mem, hfn_path⟩ := mapGet_mem newFiles e.path fn hn
        refine ⟨?_, ?_, fn, hfn_mem, hfn_path, ?_⟩
        · rw [← hclass2]
        · rw [← hclass2]
        · rw [← hclass2]
    · intro hnotnew
      have hn : mapGet newFiles e.path = none := (mapGet_eq_none_iff _ _).mpr hnotnew
      unfold classifyPath at hclass
      rw [hn] at hclass
      cases ho : mapGet oldFiles e.path with
      | none => rw [ho] at hclass; simp at hclass
      | some fo =>
        rw [ho] at hclass
        have hclass2 : (⟨e.path, .removed, some fo, none⟩ : DiffModeEntry) = e :=
          Option.some.inj hclass
        obtain ⟨hfo_mem, hfo_path⟩ := mapGet_mem oldFiles e.path fo ho
        refine ⟨?_, ?_, fo, hfo_mem, hfo_path, ?_⟩
        · rw [← hclass2]
        · rw [← hclass2]
        · rw [← hclass2]
    · intro fo hfo hfop fn hfn hfnp
      have ho : mapGet oldFiles e.path = some fo := by
        rw [← hfop]
        exact mapGet_of_nodup oldFiles hold fo hfo
      have hn : mapGet newFiles e.path = some fn := by
        rw [← hfnp]
        exact mapGet_of_nodup newFiles hnew fn hfn
      unfold classifyPath at hclass
      rw [ho, hn] at hclass
      have hclass2 : (⟨e.path,
          if fileContentsEqual fo fn then .unchanged else .modified,
          some fo, some fn⟩ : DiffModeEntry) = e := Option.some.inj hclass
      refine ⟨by rw [← hclass2], by rw [← hclass2], ?_⟩
      by_cases hb : fo.bytes = fn.bytes
      · rw [if_pos hb, ← hclass2]
        show (if fileContentsEqual fo fn then DiffFileStatus.unchanged else .modified)
          = .unchanged
        rw [if_pos ((fileContentsEqual_iff fo fn).mpr hb)]
      · rw [if_neg hb, ← hclass2]
        show (if fileContentsEqual fo fn then DiffFileStatus.unchanged else .modified)
          = .modified
        rw [if_neg (fun hc => hb ((fileContentsEqual_iff fo fn).mp hc))]

theorem claim_C1_witness :
    (((buildDiffEntries
        [⟨("a.tex").data, [1], []⟩, ⟨("b.tex").data, [3], []⟩]
        [⟨("a.tex").data, [2], []⟩, ⟨("c.tex").data, [4], []⟩]).map
          DiffModeEntry.path).Pairwise (fun a b => pathLe a b = true)) :=
  (claim_C1
    [⟨("a.tex").data, [1], []⟩, ⟨("b.tex").data, [3], []⟩]
    [⟨("a.tex").data, [2], []⟩, ⟨("c.tex").data, [4], []⟩]
    (by decide) (by decide)).1

/-! ## Default diff file selection (C3) -/

theorem claim_C3_counterexample :
    ((buildDiffEntries
        [⟨("a.txt").data, [1], []⟩, ⟨("y.tex").data, [2], []⟩, ⟨("z.tex").data, [3], []⟩]
        [⟨("a.txt").data, [9], []⟩, ⟨("y.tex").data, [2], []⟩, ⟨("z.tex").data, [3], []⟩]).filter
        (fun x => isTexPath x.path)).length = 2 ∧
    ((buildDiffEntries
        [⟨("a.txt").data, [1], []⟩, ⟨("y.tex").data, [2], []⟩, ⟨("z.tex").data, [3], []⟩]
        [⟨("a.txt").data, [9], []⟩, ⟨("y.tex").data, [2], []⟩, ⟨("z.tex").data, [3], []⟩]).filter
        (fun x => isTexPath x.path)).find? hasBeginDocument = none ∧
    ((buildDiffEntries
        [⟨("a.txt").data, [1], []⟩, ⟨("y.tex").data, [2], []⟩, ⟨("z.tex").data, [3], []⟩]
        [⟨("a.txt").data, [9], []⟩, ⟨("y.tex").data, [2], []⟩, ⟨("z.tex").data, [3], []⟩]).find?
        (fun x => !(x.status = .unchanged))).map (fun e => e.path) = some (("a.txt").data) ∧
    defaultSelectedDiffPath (buildDiffEntries
        [⟨("a.txt").data, [1], []⟩, ⟨("y.tex").data, [2], []⟩, ⟨("z.tex").data, [3], []⟩]
        [⟨("a.txt").data, [9], []⟩, ⟨("y.tex").data, [2], []⟩, ⟨("z.tex").data, [3], []⟩]) =
      some (("y.tex").data) := by
  have hstep : buildDiffEntries
      [⟨("a.txt").data, [1], []⟩, ⟨("y.tex").data, [2], []⟩, ⟨("z.tex").data, [3], []⟩]
      [⟨("a.txt").data, [9], []⟩, ⟨("y.tex").data, [2], []⟩, ⟨("z.tex").data, [3], []⟩] =
      ((dedupKeys (dedupKeys
          (([⟨("a.txt").data, [1], []⟩, ⟨("y.tex").data, [2], []⟩,
             ⟨("z.tex").data, [3], []⟩] : List FileEntry).map FileEntry.path) ++
        dedupKeys
          (([⟨("a.txt").data, [9], []⟩, ⟨("y.tex").data, [2], []⟩,
             ⟨("z.tex").data, [3], []⟩] : List FileEntry).map FileEntry.path))).mergeSort
        pathLe).filterMap (classifyPath
          [⟨("a.txt").data, [1], []⟩, ⟨("y.tex").data, [2], []⟩, ⟨("z.tex").data, [3], []⟩]
          [⟨("a.txt").data, [9], []⟩, ⟨("y.tex").data, [2], []⟩, ⟨("z.tex").data, [3], []⟩]) :=
    rfl
  have hkeys : dedupKeys (dedupKeys
      (([⟨("a.txt").data, [1], []⟩, ⟨("y.tex").data, [2], []⟩,
         ⟨("z.tex").data, [3], []⟩] : List FileEntry).map FileEntry.path) ++
      dedupKeys
      (([⟨("a.txt").data, [9], []⟩, ⟨("y.tex").data, [2], []⟩,
         ⟨("z.tex").data, [3], []⟩] : List FileEntry).map FileEntry.path)) =
      [("a.txt").data, ("y.tex").data, ("z.tex").data] := by decide
  have hb : buildDiffEntries
      [⟨("a.txt").data, [1], []⟩, ⟨("y.tex").data, [2], []⟩, ⟨("z.tex").data, [3], []⟩]
      [⟨("a.txt").data, [9], []⟩, ⟨("y.tex").data, [2], []⟩, ⟨("z.tex").data, [3], []⟩] =
      [⟨("a.txt").data, .modified, some ⟨("a.txt").data, [1], []⟩,
          some ⟨("a.txt").data, [9], []⟩⟩,
       ⟨("y.tex").data, .unchanged, some ⟨("y.tex").data, [2], []⟩,
          some ⟨("y.tex").data, [2], []⟩⟩,
       ⟨("z.tex").data, .unchanged, some ⟨("z.tex").data, [3], []⟩,
          some ⟨("z.tex").data, [3], []⟩⟩] := by
    rw [hstep, hkeys, List.mergeSort_of_sorted (by decide)]
    decide
  rw [hb]
  exact ⟨by decide, by decide, by decide, by decide⟩

/-- C3 (amended): the default selected diff path prefers `.tex` candidates:
a single candidate is selected directly; with several candidates the first
whose available file contains `\begin\x7bdocument\x7d` is selected, and when none
does, the FIRST `.tex` CANDIDATE is still selected (the code does not fall
back to the first changed path in this case, unlike §4.6 single-archive
selection); only when there is no `.tex` candidate at all does selection fall
back to the first entry with a non-`unchanged` status, and then to the first
entry overall.  All entry paths are assumed nonempty, matching the JS `||`
falsiness chain. -/
theorem claim_C3 (entries : List DiffModeEntry)
    (hne : ∀ e ∈ entries, e.path ≠ []) :
    (∀ e, entries.filter (fun x => isTexPath x.path) = [e] →
        defaultSelectedDiffPath entries = some e.path) ∧
    (∀ a b r e, entries.filter (fun x => isTexPath x.path) = a :: b :: r →
        (a :: b :: r).find? hasBeginDocument = some e →
        defaultSelectedDiffPath entries = some e.path) ∧
    (∀ a b r, entries.filter (fun x => isTexPath x.path) = a :: b :: r →
        (a :: b :: r).find? hasBeginDocument = none →
        defaultSelectedDiffPath entries = some a.path) ∧
    (entries.filter (fun x => isTexPath x.path) = [] →
      (∀ e, entries.find? (fun x => !(x.status = .unchanged)) = some e →
        defaultSelectedDiffPath entries = some e.path) ∧
      (entries.find? (fun x => !(x.status = .unchanged)) = none →
        defaultSelectedDiffPath entries = (entries.head?).map (fun e => e.path))) := by
  refine ⟨?_, ?_, ?_, ?_⟩
  · intro e hf
    have hmem : e ∈ entries :=
      List.mem_of_mem_filter (hf ▸ List.mem_cons_self e [])
    have hep : e.path ≠ [] := hne e hmem
    have hmain : findMainTexDiffPath entries = some e.path := by
      simp [findMainTexDiffPath, hf]
    simp [defaultSelectedDiffPath, hmain, jsOrPath, hep]
  · intro a b r e hf hfind
    have hmem : e ∈ entries := by
      have h1 := List.mem_of_find?_eq_some hfind
      exact List.mem_of_mem_filter (hf ▸ h1)
    have hep : e.path ≠ [] := hne e hmem
    have hmain : findMainTexDiffPath entries = some e.path := by
      simp [findMainTexDiffPath, hf, hfind]
    simp [defaultSelectedDiffPath, hmain, jsOrPath, hep]
  · intro a b r hf hfind
    have hmem : a ∈ entries :=
      List.mem_of_mem_filter (hf ▸ List.mem_cons_self a (b :: r))
    have hap : a.path ≠ [] := hne a hmem
    have hmain : findMainTexDiffPath entries = some a.path := by
      simp [findMainTexDiffPath, hf, hfind]
    simp [defaultSelectedDiffPath, hmain, jsOrPath, hap]
  · intro hf
    have hmain : findMainTexDiffPath entries = none := by
      simp [findMainTexDiffPath, hf]
    constructor
    · intro e hfind
      have hmem : e ∈ entries := List.mem_of_find?_eq_some hfind
      have hep : e.path ≠ [] := hne e hmem
      simp [defaultSelectedDiffPath, hmain, jsOrPath, hfind, hep]
    · intro hfind
      simp [defaultSelectedDiffPath, hmain, jsOrPath, hfind]

theorem claim_C3_witness :
    defaultSelectedDiffPath
      [⟨("a.txt").data, .modified, some ⟨("a.txt").data, [1], []⟩,
          some ⟨("a.txt").data, [9], []⟩⟩,
       ⟨("y.tex").data, .unchanged, some ⟨("y.tex").data, [2], []⟩,
          some ⟨("y.tex").data, [2], []⟩⟩,
       ⟨("z.tex").data, .unchanged, some ⟨("z.tex").data, [3], []⟩,
          some ⟨("z.tex").data, [3], []⟩⟩] = some (("y.tex").data) :=
  (claim_C3
    [⟨("a.txt").data, .modified, some ⟨("a.txt").data, [1], []⟩,
        some ⟨("a.txt").data, [9], []⟩⟩,
     ⟨("y.tex").data, .unchanged, some ⟨("y.tex").data, [2], []⟩,
        some ⟨("y.tex").data, [2], []⟩⟩,
     ⟨("z.tex").data, .unchanged, some ⟨("z.tex").data, [3], []⟩,
        some ⟨("z.tex").data, [3], []⟩⟩]
    (by decide)).2.2.1
    ⟨("y.tex").data, .unchanged, some ⟨("y.tex").data, [2], []⟩,
        some ⟨("y.tex").data, [2], []⟩⟩
    ⟨("z.tex").data, .unchanged, some ⟨("z.tex").data, [3], []⟩,
        some ⟨("z.tex").data, [3], []⟩⟩
    [] (by decide) (by decide)
